import Mathlib

/-!
Verification of the huffman-coding repository (src/src/*.rs) against its
natural-language specification.

The Rust sources are shallowly embedded below:
* a generic model of Rust's `std::collections::BinaryHeap` (`push` with
  `sift_up`, `pop` with `sift_down_to_bottom`), used by every tree builder;
* `src/huffman.rs` / `src/encoder.rs`: the order-N compressor
  (`build_huffman_tree` with weight normalization, `build_code_table`,
  `encode_frequencies`, `encode_data`, the chunked frequency model);
* `src/main.rs`: the complete order-0 encode/decode pipeline
  (rank-weighted `build_huffman_tree`, `encode_frequencies`, `encode_data`,
  `decode_frequencies`, `decode_data`).

Machine integers are modelled as `Nat`; every place where the Rust code can
wrap or truncate carries an explicit `% 256` or `% 2 ^ 64`-style bound.
Rust `HashMap`s are modelled as association lists whose list order stands for
the (arbitrary) iteration order; claims touched by that arbitrariness are
stated as permutation-invariance theorems.  Loops are written with explicit
fuel chosen large enough to cover every run the Rust code performs, so that
all definitions compute.
-/

namespace Huff

/-- Bytes are kept as plain `Nat` (< 256 wherever the code produces one);
`huffman.rs`: `pub type Symbol = Vec<u8>;`. -/
abbrev Symbol := List Nat

section Heap

variable {α : Type} (le : α → α → Bool)

/-- Swap the entries at positions `i` and `j` (no-op when out of range),
the effect of the index moves done through `Hole` in Rust's binary heap. -/
def swapAt (l : List α) (i j : Nat) : List α :=
  match l[i]?, l[j]? with
  | some a, some b => (l.set i b).set j a
  | _, _ => l

/-- Rust `BinaryHeap::sift_up` (with `start = 0`): move the element at `pos`
towards the root while it is strictly greater than its parent, i.e. while
`le element parent` fails.  The first argument is fuel; `pos` strictly
decreases each round, so fuel `pos` always suffices. -/
def siftUp : Nat → List α → Nat → List α
  | 0, l, _ => l
  | fuel + 1, l, pos =>
    if pos = 0 then l
    else
      let par := (pos - 1) / 2
      match l[pos]?, l[par]? with
      | some e, some p => if le e p then l else siftUp fuel (swapAt l pos par) par
      | _, _ => l

/-- Rust `BinaryHeap::push`: append, then sift the new last element up. -/
def push (l : List α) (x : α) : List α :=
  siftUp le l.length (l ++ [x]) l.length

/-- The descent loop of Rust `BinaryHeap::sift_down_to_bottom`: while both
children of the hole exist, move the greater child up and the hole down
(on `le child (child+1)` the right child is taken).  Returns the list
together with the final hole position.  Fuel `l.length` suffices, the hole
position strictly increases. -/
def sdtbLoop : Nat → List α → Nat → List α × Nat
  | 0, l, pos => (l, pos)
  | fuel + 1, l, pos =>
    let child := 2 * pos + 1
    if child + 1 < l.length then
      let c :=
        match l[child]?, l[child + 1]? with
        | some x, some y => if le x y then child + 1 else child
        | _, _ => child
      sdtbLoop fuel (swapAt l pos c) c
    else (l, pos)

/-- Rust `BinaryHeap::sift_down_to_bottom` at `pos = 0`: push the hole to the
bottom along maximal children, take a final only-left-child step when the
left child is the last entry, then sift the element back up. -/
def siftDownToBottom (l : List α) (pos : Nat) : List α :=
  let s := sdtbLoop le l.length l pos
  let child := 2 * s.2 + 1
  let s2 := if child + 1 = s.1.length then (swapAt s.1 s.2 child, child) else s
  siftUp le s2.2 s2.1 s2.2

/-- Rust `BinaryHeap::pop`: remove the last element; if the heap remains
non-empty, swap it with the root, return the old root and restore the heap
with `sift_down_to_bottom 0`. -/
def pop (l : List α) : Option (α × List α) :=
  match l.dropLast, l.getLast? with
  | [], some last => some (last, [])
  | r :: t, some last => some (r, siftDownToBottom le (last :: t) 0)
  | _, none => none

/-- Pop every element (`while let Some(x) = heap.pop()`); fuel `l.length`
suffices since `pop` shortens the list by one. -/
def popAll : Nat → List α → List α
  | 0, _ => []
  | fuel + 1, l =>
    match pop le l with
    | some (a, r) => a :: popAll fuel r
    | none => []

/-- The binary-heap shape invariant: every non-root entry is `le` its parent
(the root is the greatest element for `le`). -/
def IsHeap (l : List α) : Prop :=
  ∀ i a b, 0 < i → l[i]? = some a → l[(i - 1) / 2]? = some b → le a b = true

end Heap

/-- The `Node` enum shared (up to the symbol type) by `huffman.rs` (symbol =
`Vec<u8>`) and `main.rs` (symbol = `u8`): a leaf carries a symbol and a
weight, an internal node carries a weight and two children. -/
inductive HTree (σ : Type) where
  | leaf (symbol : σ) (freq : Nat)
  | internal (freq : Nat) (left right : HTree σ)
deriving DecidableEq, Repr

/-- `Node::freq`. -/
def HTree.freq {σ : Type} : HTree σ → Nat
  | .leaf _ f => f
  | .internal f _ _ => f

/-- The `HeapNode` wrapper of `huffman.rs`/`main.rs`: a cached weight next to
the boxed node. -/
structure HeapNode (σ : Type) where
  freq : Nat
  node : HTree σ
deriving DecidableEq, Repr

/-- `HeapNode::cmp`: `other.freq.cmp(&self.freq)` — the reversal makes the
max-heap behave as a min-heap on weights.  Ties compare `Equal`. -/
def heapNodeCmp {σ : Type} (a b : HeapNode σ) : Ordering :=
  compare b.freq a.freq

/-- Rust `a <= b` for `HeapNode`, i.e. `cmp(a, b) ≠ Greater`. -/
def heapNodeLe {σ : Type} (a b : HeapNode σ) : Bool :=
  heapNodeCmp a b != .gt

/-- Rust `Ord` on `Vec<u8>`: lexicographic, a strict prefix is smaller. -/
def lexCmp : List Nat → List Nat → Ordering
  | [], [] => .eq
  | [], _ :: _ => .lt
  | _ :: _, [] => .gt
  | a :: as, b :: bs => (compare a b).then (lexCmp as bs)

/-- `Node::cmp` of `huffman.rs`: weights reversed first; on equal weight,
leaf vs leaf compares symbols lexicographically, a leaf is `Less` than an
internal node, and two internal nodes are `Equal`. -/
def nodeCmp : HTree Symbol → HTree Symbol → Ordering :=
  fun a b =>
    let fc := compare b.freq a.freq
    if fc ≠ .eq then fc
    else
      match a, b with
      | .leaf s1 _, .leaf s2 _ => lexCmp s1 s2
      | .leaf _ _, .internal _ _ _ => .lt
      | .internal _ _ _, .leaf _ _ => .gt
      | .internal _ _ _, .internal _ _ _ => .eq

/-- Rust `a <= b` for `huffman.rs` `Node`. -/
def nodeLe (a b : HTree Symbol) : Bool :=
  nodeCmp a b != .gt

/-- `Node::cmp` of `main.rs` (symbols are single bytes). -/
def nodeCmpB : HTree Nat → HTree Nat → Ordering :=
  fun a b =>
    let fc := compare b.freq a.freq
    if fc ≠ .eq then fc
    else
      match a, b with
      | .leaf s1 _, .leaf s2 _ => compare s1 s2
      | .leaf _ _, .internal _ _ _ => .lt
      | .internal _ _ _, .leaf _ _ => .gt
      | .internal _ _ _, .internal _ _ _ => .eq

/-- Rust `a <= b` for `main.rs` `Node`. -/
def nodeLeB (a b : HTree Nat) : Bool :=
  nodeCmpB a b != .gt

/-! ### huffman.rs: weight normalization and tree construction -/

/-- `u64::MAX`. -/
def u64MAX : Nat := 2 ^ 64 - 1

/-- `huffman.rs` line 101: `let limit = u64::MAX / 2;`. -/
def limit : Nat := u64MAX / 2

/-- The running total the normalization loop recomputes (`u128` in the
source, hence exact). -/
def totalWeight {σ : Type} (l : List (σ × Nat)) : Nat :=
  (l.map (·.2)).sum

/-- One pass of the normalization loop body: every weight is halved and
floored at 1 (`*freq = (*freq >> 1).max(1)`). -/
def scaleStep {σ : Type} (l : List (σ × Nat)) : List (σ × Nat) :=
  l.map fun p => (p.1, max (p.2 / 2) 1)

/-- `while total_weight > limit { ... }`, with fuel.  64 rounds of halving
turn any `u64` weight into exactly 1, after which the total equals the table
size; the Rust loop therefore performs at most 64 iterations whenever the
table has at most `limit` entries, and fuel 64 reproduces it exactly. -/
def scaleLoop {σ : Type} : Nat → List (σ × Nat) → List (σ × Nat)
  | 0, l => l
  | fuel + 1, l => if limit < totalWeight l then scaleLoop fuel (scaleStep l) else l

/-- Steps 1–2 of `build_huffman_tree` (`huffman.rs` lines 91–123): copy the
weights and normalize them when their total exceeds `limit`. -/
def normalizeWeights {σ : Type} (l : List (σ × Nat)) : List (σ × Nat) :=
  scaleLoop 64 l

/-- Insert `x` into a sorted list, in front of the first element it is
`le`-below. -/
def insertLe {α : Type} (le : α → α → Bool) (x : α) : List α → List α
  | [] => [x]
  | y :: ys => if le x y then x :: y :: ys else y :: insertLe le x ys

/-- `freq_vec.sort_by(...)`: Rust's stable sort, modelled as an insertion
sort.  The two comparators used in the sources (`pairCmp`, `pairCmpB`) are
antisymmetric total preorders, so every sort — stable or not — produces the
same list; the model is therefore exact. -/
def sortBy {α : Type} (le : α → α → Bool) : List α → List α
  | [] => []
  | x :: xs => insertLe le x (sortBy le xs)

/-- `huffman.rs` line 126 comparator on `(symbol, weight)` pairs:
`a.1.cmp(&b.1).then(b.0.cmp(a.0))` — ascending weight, ties by descending
symbol. -/
def pairCmp (a b : Symbol × Nat) : Ordering :=
  (compare a.2 b.2).then (lexCmp b.1 a.1)

/-- `main.rs` line 80 comparator, same shape with `u8` symbols. -/
def pairCmpB (a b : Nat × Nat) : Ordering :=
  (compare a.2 b.2).then (compare b.1 a.1)

/-- The merge phase shared by all `build_huffman_tree` versions:
`while heap.len() > 1` pop two nodes, merge them into an `Internal` node
whose weight is their sum, and push it back.  Fuel: each round shrinks the
heap by one, so the initial length suffices.  (The `unwrap`s cannot fail:
`pop` returns `some` on every non-empty list, and both pops happen at
length ≥ 2; the fallback arms are dead code.) -/
def mergeLoop {σ : Type} : Nat → List (HeapNode σ) → List (HeapNode σ)
  | 0, h => h
  | fuel + 1, h =>
    if 1 < h.length then
      match pop heapNodeLe h with
      | some (left, h1) =>
        match pop heapNodeLe h1 with
        | some (right, h2) =>
          let f := left.freq + right.freq
          mergeLoop fuel (push heapNodeLe h2 ⟨f, .internal f left.node right.node⟩)
        | none => h1
      | none => h
    else h

/-- The merge phase again, recording each round as the pair of popped nodes
together with the heap left after the two pops.  Same loop as `mergeLoop`,
kept separately so the extraction order of `build_huffman_tree` can be
stated. -/
def mergeTrace {σ : Type} : Nat → List (HeapNode σ) →
    List (HeapNode σ × HeapNode σ × List (HeapNode σ))
  | 0, _ => []
  | fuel + 1, h =>
    if 1 < h.length then
      match pop heapNodeLe h with
      | some (left, h1) =>
        match pop heapNodeLe h1 with
        | some (right, h2) =>
          let f := left.freq + right.freq
          (left, right, h2)
            :: mergeTrace fuel (push heapNodeLe h2 ⟨f, .internal f left.node right.node⟩)
        | none => []
      | none => []
    else []

/-- `build_huffman_tree` of `huffman.rs` (lines 88–161): copy and normalize
the weights, sort by `pairCmp`, push a leaf per entry, merge until one node
remains, and pop it (`None` exactly when the heap never had a node).
The association-list argument stands for the `HashMap`; the sort makes the
result independent of its order (see the determinism theorems). -/
def buildHuffmanTree (frequencies : List (Symbol × Nat)) : Option (HTree Symbol) :=
  let freqVec := normalizeWeights frequencies
  let sorted := sortBy (fun a b => pairCmp a b != .gt) freqVec
  let heap0 := sorted.foldl (fun h p => push heapNodeLe h ⟨p.2, .leaf p.1 p.2⟩) []
  (pop heapNodeLe (mergeLoop heap0.length heap0)).map fun x => x.1.node

/-- The sequence of merge rounds `build_huffman_tree` performs on a table:
the initial heap is built exactly as in `buildHuffmanTree`, then traced. -/
def buildTrace (frequencies : List (Symbol × Nat)) :
    List (HeapNode Symbol × HeapNode Symbol × List (HeapNode Symbol)) :=
  let freqVec := normalizeWeights frequencies
  let sorted := sortBy (fun a b => pairCmp a b != .gt) freqVec
  let heap0 := sorted.foldl (fun h p => push heapNodeLe h ⟨p.2, .leaf p.1 p.2⟩) []
  mergeTrace heap0.length heap0

/-- `build_code_table` (`huffman.rs` lines 163–173, identically in
`main.rs`): depth-first walk, appending `"0"` on the left edge and `"1"`
on the right; each leaf binds its symbol to the accumulated prefix.  The
mutated `HashMap` is modelled as the association list of insertions in
depth-first order. -/
def buildCodeTable {σ : Type} : HTree σ → String → List (σ × String)
  | .leaf s _, pfx => [(s, pfx)]
  | .internal _ l r, pfx => buildCodeTable l (pfx ++ "0") ++ buildCodeTable r (pfx ++ "1")

/-! ### Bit packing helpers (encoder.rs `encode_data`, main.rs
`encode_data` / `decode_data`) -/

/-- Pack one chunk of at most 8 bits, most significant first:
`byte = (byte << 1) | bit` starting from 0 never exceeds 255. -/
def packByte (chunk : List Nat) : Nat :=
  chunk.foldl (fun byte bit => byte * 2 + bit) 0

/-- `bits.chunks(8)` followed by packing (fuel: list length). -/
def bitsToBytes : Nat → List Nat → List Nat
  | 0, _ => []
  | _, [] => []
  | fuel + 1, bits => packByte (bits.take 8) :: bitsToBytes fuel (bits.drop 8)

/-- Zero bits appended until the length is a multiple of 8
(`while bits.len() % 8 != 0 { bits.push(0); }`). -/
def padBits (bits : List Nat) : List Nat :=
  bits ++ List.replicate ((8 - bits.length % 8) % 8) 0

/-- The bits of one code string, `'1' ↦ 1`, anything else `↦ 0`. -/
def codeBits (code : String) : List Nat :=
  code.data.map fun c => if c = '1' then 1 else 0

/-- `encode_data` (both `encoder.rs` lines 60–96 on blocks and `main.rs`
lines 146–170 on bytes): look each block up in the code table, concatenate
the code bits (a missing entry only logs and contributes nothing), zero-pad
to a byte boundary, and pack MSB-first. -/
def encodeData {κ : Type} [BEq κ] (blocks : List κ) (table : List (κ × String)) : List Nat :=
  let bits := blocks.foldl
    (fun bits b =>
      match table.lookup b with
      | some code => bits ++ codeBits code
      | none => bits)
    []
  bitsToBytes (padBits bits).length (padBits bits)

/-- One byte expanded MSB-first (`for i in (0..8).rev() { (byte >> i) & 1 }`). -/
def byteBits (b : Nat) : List Nat :=
  (List.range 8).map fun i => b / 2 ^ (7 - i) % 2

/-- `bytes_to_bits` / the expansion loop of `decode_data`. -/
def bytesToBits (data : List Nat) : List Nat :=
  (data.map byteBits).flatten

/-! ### Association-list counterpart of `HashMap` counting -/

/-- `*table.entry(k).or_insert(0) += 1`: bump an existing key in place, or
append the key (first-occurrence order) with count 1. -/
def bump {κ : Type} [DecidableEq κ] (t : List (κ × Nat)) (k : κ) : List (κ × Nat) :=
  if t.any fun p => p.1 = k then
    t.map fun p => if p.1 = k then (p.1, p.2 + 1) else p
  else t ++ [(k, 1)]

/-! ### encoder.rs: the order-N compressor -/

/-- `n.to_be_bytes()` for a `k`-byte integer: big-endian bytes. -/
def beBytes (k n : Nat) : List Nat :=
  (List.range k).map fun i => n / 2 ^ (8 * (k - 1 - i)) % 256

/-- The symbol-emitting pop loop of `encode_frequencies` (`encoder.rs`
lines 40–50): pop until `None`, appending the bytes of each `Leaf` symbol
and skipping `Internal` nodes (none are ever pushed). -/
def popSymbols (le : HTree Symbol → HTree Symbol → Bool) :
    Nat → List (HTree Symbol) → List Nat
  | 0, _ => []
  | fuel + 1, h =>
    match pop le h with
    | some (.leaf s _, h') => s ++ popSymbols le fuel h'
    | some (.internal _ _ _, h') => popSymbols le fuel h'
    | none => []

/-- `encode_frequencies` (`encoder.rs` lines 15–58): big-endian
`original_len : u64`, one `block_size` byte, the number of unique symbols
as a big-endian `u32`, then the symbols in the order a max-heap of `Node`
leaves pops them.  Note: no weights are written. -/
def encodeFrequenciesEnc (frequencies : List (Symbol × Nat)) (blockSize : Nat)
    (originalLen : Nat) : List Nat :=
  let heap0 := frequencies.foldl (fun h p => push nodeLe h (.leaf p.1 p.2)) []
  beBytes 8 originalLen ++ [blockSize] ++ beBytes 4 (heap0.length % 2 ^ 32)
    ++ popSymbols nodeLe heap0.length heap0

/-- `raw_data.chunks(block_size)` with the last chunk zero-padded to
`block_size` (`encoder.rs` lines 152–161).  Fuel: the data length. -/
def chunksPadded : Nat → Nat → List Nat → List Symbol
  | 0, _, _ => []
  | _, _, [] => []
  | fuel + 1, bs, data =>
    (data.take bs ++ List.replicate (bs - (data.take bs).length) 0)
      :: chunksPadded fuel bs (data.drop bs)

/-- The frequency model of `encoder.rs` `main` (lines 152–169): count one
occurrence per padded `block_size`-byte chunk, `block_size = order + 1`. -/
def freqModel (data : List Nat) (order : Nat) : List (Symbol × Nat) :=
  (chunksPadded data.length (order + 1) data).foldl bump []

/-- The compression pipeline of `encoder.rs` `main` (lines 143–183), with
the frequency table passed explicitly (its list order models the `HashMap`
iteration order).  The `expect` on a failed tree build is modelled as an
`Except.error` carrying the panic message. -/
def encoderCompressWith (freq : List (Symbol × Nat)) (data : List Nat)
    (order : Nat) : Except String (List Nat) :=
  let blockSize := order + 1
  let chunks := chunksPadded data.length blockSize data
  match buildHuffmanTree freq with
  | none => .error "could not build huffman tree"
  | some tree =>
    let table := buildCodeTable tree ""
    .ok (encodeFrequenciesEnc freq blockSize data.length ++ encodeData chunks table)

/-- `encoder.rs` `main` with the frequency table computed from the data. -/
def encoderCompress (data : List Nat) (order : Nat) : Except String (List Nat) :=
  encoderCompressWith (freqModel data order) data order

/-! ### main.rs: the complete order-0 pipeline -/

/-- `build_huffman_tree` of `main.rs` (lines 78–106): sort the table by
ascending count, ties by descending byte, then push one leaf per entry whose
weight is its 1-based rank `i + 1` (the true counts are discarded), and
merge. -/
def buildHuffmanTreeMain (frequencies : List (Nat × Nat)) : Option (HTree Nat) :=
  let sorted := sortBy (fun a b => pairCmpB a b != .gt) frequencies
  let heap0 := sorted.enum.foldl
    (fun h ip => push heapNodeLe h ⟨ip.1 + 1, .leaf ip.2.1 (ip.1 + 1)⟩) []
  (pop heapNodeLe (mergeLoop heap0.length heap0)).map fun x => x.1.node

/-- The byte-emitting pop loop of `encode_frequencies` (`main.rs` lines
129–140): pop until `None`, appending each `Leaf` byte. -/
def popBytes (le : HTree Nat → HTree Nat → Bool) :
    Nat → List (HTree Nat) → List Nat
  | 0, _ => []
  | fuel + 1, h =>
    match pop le h with
    | some (.leaf b _, h') => b :: popBytes le fuel h'
    | some (.internal _ _ _, h') => popBytes le fuel h'
    | none => []

/-- `encode_frequencies` of `main.rs` (lines 120–144): the popped leaf bytes
with the leaf count (`count as u8`, hence `% 256`) inserted at the front.
No weights are written. -/
def encodeFrequenciesMain (frequencies : List (Nat × Nat)) : List Nat :=
  let heap0 := frequencies.foldl (fun h p => push nodeLeB h (.leaf p.1 p.2)) []
  let bytes := popBytes nodeLeB heap0.length heap0
  bytes.length % 256 :: bytes

/-- `read_frequencies_and_data_from_file` (`main.rs` lines 183–189): split
the container at `content[0] + 1`. -/
def readFreqAndData (content : List Nat) : List Nat × List Nat :=
  let freqSize := content.headD 0 + 1
  (content.take freqSize, content.drop freqSize)

/-- `decode_frequencies` (`main.rs` lines 191–199): symbol `encoded[i+1]`
receives weight `i + 1` — the rank, not the original count. -/
def decodeFrequencies (encoded : List Nat) : List (Nat × Nat) :=
  (List.range (encoded.headD 0)).map fun i => (encoded.getD (i + 1) 0, i + 1)

/-- The bit loop of `decode_data` (`main.rs` lines 214–220): grow the
current code string one bit at a time and emit a byte on an exact match in
the reversed code table; padding bits are treated like any others. -/
def decodeLoop (rt : List (String × Nat)) :
    List Nat → String → List Nat → List Nat
  | [], _, acc => acc
  | bit :: rest, cur, acc =>
    let cur := cur ++ (if bit = 1 then "1" else "0")
    match rt.lookup cur with
    | some byte => decodeLoop rt rest "" (acc ++ [byte])
    | none => decodeLoop rt rest cur acc

/-- `decode_data` (`main.rs` lines 201–222): expand the body to bits,
reverse the code table, and scan. -/
def decodeDataMain (encoded : List Nat) (table : List (Nat × String)) : List Nat :=
  decodeLoop (table.map fun p => (p.2, p.1)) (bytesToBits encoded) "" []

/-- `*freq.entry(b).or_insert(0) += 1` over the input bytes (`main.rs`
lines 240–243). -/
def countFreqs (data : List Nat) : List (Nat × Nat) :=
  data.foldl bump []

/-- The encoder half of `main.rs` `main` (lines 239–251): `none` models the
`expect` panic on an empty input. -/
def mainEncode (data : List Nat) : Option (List Nat) :=
  let freq := countFreqs data
  match buildHuffmanTreeMain freq with
  | none => none
  | some tree =>
    some (encodeFrequenciesMain freq ++ encodeData data (buildCodeTable tree ""))

/-- The decoder half of `main.rs` `main` (lines 260–271). -/
def mainDecode (content : List Nat) : Option (List Nat) :=
  let parts := readFreqAndData content
  let freq := decodeFrequencies parts.1
  match buildHuffmanTreeMain freq with
  | none => none
  | some tree =>
    some (decodeDataMain parts.2 (buildCodeTable tree ""))

/-- Encode then decode, the composition `main.rs` itself checks with
`assert_eq!(data, decoded_data)`. -/
def mainRoundTrip (data : List Nat) : Option (List Nat) :=
  (mainEncode data).bind mainDecode

end Huff

namespace Huff

/-! ## Claim theorems: concrete behaviour of the pipelines -/

/-- C1: the spec claims `decompress(compress(b, o)) == b` for every
non-empty `b`.  The code violates it (and its own
`assert_eq!(data, decoded_data)` in `main.rs`): on the two-byte input
`"ab" = [0x61, 0x62]` the decoder also decodes the zero padding bits, so
the round trip returns eight bytes instead of two. -/
theorem c1_roundtrip_fails_on_ab :
    mainRoundTrip [97, 98] = some [97, 98, 98, 98, 98, 98, 98, 98] ∧
    mainRoundTrip [97, 98] ≠ some [97, 98] :=
  ⟨by decide, by decide⟩

/-- C2: the spec claims the decoded output always has exactly the original
length, trimmed at `original_length`.  No decoder in the code consumes an
original length (the `main.rs` container does not even record one): on input
`[0x61, 0x62]` the decoded output has length 8, not 2. -/
theorem c2_output_longer_than_original :
    (mainRoundTrip [97, 98]).map List.length = some 8 ∧ (8 : Nat) ≠ 2 :=
  ⟨by decide, by decide⟩

/-- C3 counterexample: `encode_frequencies` (`encoder.rs`) writes no
weights: two frequency tables that differ in a weight serialize to the same
container header, so the embedded data cannot determine the frequencies. -/
theorem c3_counterexample_header_forgets_weights :
    encodeFrequenciesEnc [([97], 1), ([98], 2)] 1 3
      = encodeFrequenciesEnc [([97], 1), ([98], 3)] 1 3 ∧
    ([([97], 1), ([98], 2)] : List (Symbol × Nat)) ≠ [([97], 1), ([98], 3)] :=
  ⟨by decide, by decide⟩

/-- C4 counterexample: the frequency model counts one symbol per
`block_size`-byte chunk, not one per byte: on the 3-byte input `[1, 2, 3]`
at order 1 the recorded weights total 2, and the symbols are the padded
chunks `[1, 2]` and `[3, 0]`, not sliding-context pairs. -/
theorem c4_counterexample_chunks_not_sliding :
    freqModel [1, 2, 3] 1 = [([1, 2], 1), ([3, 0], 1)] ∧
    totalWeight (freqModel [1, 2, 3] 1) ≠ ([1, 2, 3] : List Nat).length :=
  ⟨by decide, by decide⟩

/-- C5: the spec claims a single-symbol table yields a fabricated two-leaf
tree whose placeholder is excluded from the code table, giving the real
symbol a one-bit code.  `build_huffman_tree` actually returns the bare leaf,
the code table maps the symbol to the empty code, and the single-symbol
round trip of `main.rs` returns `[]` (its own `assert_eq!` fails). -/
theorem c5_single_symbol_gets_empty_code :
    buildHuffmanTree [([65], 5)] = some (.leaf [65] 5) ∧
    buildCodeTable (HTree.leaf ([65] : Symbol) 5) "" = [([65], "")] ∧
    mainRoundTrip [65, 65, 65] = some [] :=
  ⟨by decide, by decide, by decide⟩

/-- C6 counterexample: the claim orders extractions by weight with ties
broken lexicographically (leaves before internal nodes) — the order
`Node::cmp` defines.  On the all-ties table `{[97] ↦ 1, [98] ↦ 1, [99] ↦ 1}`
the first merge round extracts the leaves `[99]` and `[98]` while the
strictly `Node::cmp`-smaller leaf `[97]` is still in the heap: `HeapNode`'s
ordering compares weights only, so ties follow the heap layout instead. -/
theorem c6_counterexample_ties_not_lexicographic :
    (buildTrace [([97], 1), ([98], 1), ([99], 1)]).head? =
      some (⟨1, .leaf [99] 1⟩, ⟨1, .leaf [98] 1⟩, [⟨1, .leaf [97] 1⟩]) ∧
    nodeCmp (.leaf [97] 1) (.leaf [99] 1) = .lt ∧
    nodeCmp (.leaf [97] 1) (.leaf [98] 1) = .lt :=
  ⟨by decide, by decide, by decide⟩

/-- C9 counterexample: compressing an empty buffer does not fail with an
`EmptyInput` error (no such check exists) — the empty frequency table is
handed to `build_huffman_tree`, which returns `None`, and the pipeline
aborts with the `expect` panic message of `encoder.rs` line 171. -/
theorem c9_counterexample_no_empty_input_error :
    encoderCompress [] 0 = .error "could not build huffman tree" ∧
    freqModel [] 0 = [] ∧ buildHuffmanTree [] = none :=
  ⟨rfl, rfl, rfl⟩

/-- C9 amended: for every order, compressing the empty buffer never produces
a container; the empty statistics do reach `build_huffman_tree` and the run
ends in the tree-build panic rather than a structured `EmptyInput` error. -/
theorem c9_amended_empty_input_always_panics (o : Nat) :
    encoderCompress [] o = .error "could not build huffman tree" :=
  rfl

/-- Witness for `c9_amended_empty_input_always_panics` at order 2. -/
theorem c9_amended_empty_input_always_panics_witness :
    encoderCompress [] 2 = .error "could not build huffman tree" :=
  c9_amended_empty_input_always_panics 2

end Huff

namespace Huff

/-! ## Counting lemmas for the chunked frequency model -/

/-- Keys of an association-list table. -/
def keys {κ : Type} (t : List (κ × Nat)) : List κ :=
  t.map Prod.fst

theorem keys_bump {κ : Type} [DecidableEq κ] (t : List (κ × Nat)) (k : κ)
    (h : t.any (fun p => p.1 = k) = true) : keys (bump t k) = keys t := by
  simp only [bump, h, if_true, keys, List.map_map]
  refine List.map_congr_left fun p _ => ?_
  by_cases hp : p.1 = k <;> simp [hp]

theorem keys_bump_new {κ : Type} [DecidableEq κ] (t : List (κ × Nat)) (k : κ)
    (h : ¬ t.any (fun p => p.1 = k) = true) : keys (bump t k) = keys t ++ [k] := by
  simp [bump, h, keys]

theorem bump_nodup {κ : Type} [DecidableEq κ] (t : List (κ × Nat)) (k : κ)
    (h : (keys t).Nodup) : (keys (bump t k)).Nodup := by
  by_cases hm : t.any (fun p => p.1 = k) = true
  · rw [keys_bump t k hm]; exact h
  · rw [keys_bump_new t k hm]
    simp only [List.any_eq_true, not_exists, not_and, decide_eq_true_eq] at hm
    have hk : k ∉ keys t := by
      intro hmem
      rcases List.mem_map.mp hmem with ⟨p, hp, hpk⟩
      exact absurd hpk (by simpa using hm p hp)
    refine h.append (List.nodup_singleton k) ?_
    intro a ha hb
    rw [List.mem_singleton] at hb
    exact hk (hb ▸ ha)

theorem totalWeight_map_bump {κ : Type} [DecidableEq κ] (t : List (κ × Nat)) (k : κ)
    (hnd : (keys t).Nodup) (hmem : k ∈ keys t) :
    totalWeight (t.map fun p => if p.1 = k then (p.1, p.2 + 1) else p)
      = totalWeight t + 1 := by
  induction t with
  | nil => simp [keys] at hmem
  | cons p rest ih =>
    simp only [keys, List.map_cons, List.nodup_cons] at hnd
    by_cases hp : p.1 = k
    · have hrest : ∀ q ∈ rest, ¬ q.1 = k := by
        intro q hq hqk
        exact hnd.1 (List.mem_map.mpr ⟨q, hq, by rw [hqk, hp]⟩)
      have hmap : rest.map (fun q => if q.1 = k then (q.1, q.2 + 1) else q) = rest := by
        conv_rhs => rw [← List.map_id rest]
        refine List.map_congr_left fun q hq => by simp [hrest q hq]
      simp only [List.map_cons, hp, if_true, hmap, totalWeight, List.sum_cons]
      omega
    · have hmem' : k ∈ keys rest := by
        rcases List.mem_map.mp hmem with ⟨q, hq, hqk⟩
        rcases List.mem_cons.mp hq with rfl | hq'
        · exact absurd hqk hp
        · exact List.mem_map.mpr ⟨q, hq', hqk⟩
      have hih := ih hnd.2 hmem'
      simp only [List.map_cons, hp, if_false, totalWeight, List.sum_cons] at hih ⊢
      omega

theorem totalWeight_bump {κ : Type} [DecidableEq κ] (t : List (κ × Nat)) (k : κ)
    (hnd : (keys t).Nodup) : totalWeight (bump t k) = totalWeight t + 1 := by
  by_cases hm : t.any (fun p => p.1 = k) = true
  · rcases List.any_eq_true.mp hm with ⟨p, hp, hpk⟩
    have hmem : k ∈ keys t :=
      List.mem_map.mpr ⟨p, hp, by simpa using hpk⟩
    simpa [bump, hm] using totalWeight_map_bump t k hnd hmem
  · simp [bump, hm, totalWeight]

theorem totalWeight_foldl_bump {κ : Type} [DecidableEq κ] (blocks : List κ) :
    ∀ t : List (κ × Nat), (keys t).Nodup →
      totalWeight (blocks.foldl bump t) = totalWeight t + blocks.length := by
  induction blocks with
  | nil => intro t _; simp
  | cons b rest ih =>
    intro t hnd
    have h1 := totalWeight_bump t b hnd
    have h2 := ih (bump t b) (bump_nodup t b hnd)
    simp only [List.foldl_cons, List.length_cons]
    omega

theorem chunksPadded_length (fuel : Nat) :
    ∀ (bs : Nat) (data : List Nat), 0 < bs → data.length ≤ fuel →
      (chunksPadded fuel bs data).length = (data.length + bs - 1) / bs := by
  induction fuel with
  | zero =>
    intro bs data hbs hlen
    have hnil : data = [] := List.eq_nil_of_length_eq_zero (Nat.le_zero.mp hlen)
    subst hnil
    simp only [chunksPadded, List.length_nil, Nat.zero_add]
    rw [Nat.div_eq_of_lt (by omega)]
  | succ n ih =>
    intro bs data hbs hlen
    match data with
    | [] =>
      simp only [chunksPadded, List.length_nil, Nat.zero_add]
      rw [Nat.div_eq_of_lt (by omega)]
    | d :: ds =>
      have hrec := ih bs ((d :: ds).drop bs) hbs
        (by simp only [List.length_drop, List.length_cons]
            simp only [List.length_cons] at hlen; omega)
      simp only [List.length_drop, List.length_cons] at hrec
      simp only [chunksPadded, List.length_cons, hrec]
      rcases Nat.lt_or_ge (ds.length + 1) bs with hlt | hge
      · have h1 : ds.length + 1 - bs = 0 := by omega
        have h2 : (ds.length + 1 + bs - 1) / bs = 1 := by
          apply Nat.div_eq_of_lt_le <;> omega
        rw [h1, h2]
        rw [Nat.div_eq_of_lt (by omega)]
      · have h2 : ds.length + 1 + bs - 1 = (ds.length + 1 - bs + bs - 1) + bs := by omega
        rw [h2, Nat.add_div_right _ hbs]

/-- C4 amended: the frequency model counts one symbol per consecutive
non-overlapping `block_size = order + 1`-byte chunk of the input, with the
final chunk zero-padded; no per-byte sliding context exists, and the total
of all recorded weights is `⌈len / block_size⌉`, which equals the input
length only at order 0. -/
theorem c4_amended_total_weight_counts_chunks (data : List Nat) (order : Nat) :
    totalWeight (freqModel data order) = (data.length + order) / (order + 1) := by
  have h1 := totalWeight_foldl_bump (chunksPadded data.length (order + 1) data)
    ([] : List (Symbol × Nat)) (by simp [keys])
  have h2 := chunksPadded_length data.length (order + 1) data (by omega) (le_refl _)
  have h3 : data.length + (order + 1) - 1 = data.length + order := by omega
  rw [h3] at h2
  simp only [freqModel]
  rw [h1, h2]
  simp [totalWeight]

end Huff

namespace Huff

/-! ## Binary-heap lemmas: lengths and permutations -/

section HeapLemmas

variable {α : Type} (le : α → α → Bool)

theorem swapAt_length (l : List α) (i j : Nat) : (swapAt l i j).length = l.length := by
  unfold swapAt
  cases l[i]? <;> cases l[j]? <;> simp

theorem getElem?_swapAt_fst {l : List α} {i j : Nat} {a b : α}
    (hi : l[i]? = some a) (hj : l[j]? = some b) : (swapAt l i j)[i]? = some b := by
  unfold swapAt
  rw [hi, hj]
  by_cases hij : i = j
  · subst hij
    rw [hi] at hj
    cases hj
    rw [List.getElem?_set_self (by simpa using (List.getElem?_eq_some.mp hi).1)]
  · rw [List.getElem?_set_ne (Ne.symm hij),
      List.getElem?_set_self (List.getElem?_eq_some.mp hi).1]

theorem getElem?_swapAt_snd {l : List α} {i j : Nat} {a b : α}
    (hi : l[i]? = some a) (hj : l[j]? = some b) : (swapAt l i j)[j]? = some a := by
  unfold swapAt
  rw [hi, hj]
  rw [List.getElem?_set_self (by simpa using (List.getElem?_eq_some.mp hj).1)]

theorem getElem?_swapAt_other {l : List α} {i j k : Nat}
    (hki : k ≠ i) (hkj : k ≠ j) : (swapAt l i j)[k]? = l[k]? := by
  unfold swapAt
  cases l[i]? <;> cases l[j]? <;> simp only []
  rw [List.getElem?_set_ne (Ne.symm hkj), List.getElem?_set_ne (Ne.symm hki)]

theorem count_set_balanced [DecidableEq α] {l : List α} {i : Nat} {v : α} (c x : α)
    (hv : l[i]? = some v) :
    (l.set i c).count x + (if v = x then 1 else 0)
      = l.count x + (if c = x then 1 else 0) := by
  rcases List.getElem?_eq_some.mp hv with ⟨hlen, hvi⟩
  have hset := List.count_set c x l i hlen
  rw [hvi] at hset
  have hmem : v ∈ l := hvi ▸ List.getElem_mem hlen
  have hpos : v = x → 1 ≤ l.count x := fun h => List.count_pos_iff.mpr (h ▸ hmem)
  by_cases h1 : v = x
  · have hge := hpos h1
    by_cases h2 : c = x <;> simp [beq_iff_eq, h1, h2] at hset ⊢ <;> omega
  · by_cases h2 : c = x <;> simp [beq_iff_eq, h1, h2] at hset ⊢ <;> omega

theorem swapAt_perm [DecidableEq α] (l : List α) (i j : Nat) :
    (swapAt l i j).Perm l := by
  rcases hi : l[i]? with _ | a
  · unfold swapAt; rw [hi]
  · rcases hj : l[j]? with _ | b
    · unfold swapAt; rw [hi, hj]
    · have hset : swapAt l i j = (l.set i b).set j a := by
        unfold swapAt; rw [hi, hj]
      have hbj : (l.set i b)[j]? = some b := by
        by_cases hij : i = j
        · subst hij
          exact List.getElem?_set_self (List.getElem?_eq_some.mp hi).1
        · rw [List.getElem?_set_ne hij]; exact hj
      rw [hset]
      apply List.perm_iff_count.mpr
      intro x
      have c1 := count_set_balanced b x hi
      have c2 := count_set_balanced a x hbj
      by_cases hax : a = x <;> by_cases hbx : b = x <;>
        simp [hax, hbx] at c1 c2 ⊢ <;> omega

theorem siftUp_length : ∀ (fuel : Nat) (l : List α) (pos : Nat),
    (siftUp le fuel l pos).length = l.length := by
  intro fuel
  induction fuel with
  | zero => intro l pos; rfl
  | succ n ih =>
    intro l pos
    unfold siftUp
    by_cases h0 : pos = 0
    · simp [h0]
    · simp only [h0, if_false]
      cases hp : l[pos]? <;> cases hq : l[(pos - 1) / 2]? <;> simp only []
      split
      · rfl
      · rw [ih, swapAt_length]

theorem siftUp_perm [DecidableEq α] : ∀ (fuel : Nat) (l : List α) (pos : Nat),
    (siftUp le fuel l pos).Perm l := by
  intro fuel
  induction fuel with
  | zero => intro l pos; exact List.Perm.refl l
  | succ n ih =>
    intro l pos
    unfold siftUp
    by_cases h0 : pos = 0
    · simp [h0]
    · simp only [h0, if_false]
      cases hp : l[pos]? <;> cases hq : l[(pos - 1) / 2]? <;>
        first
          | exact List.Perm.refl l
          | (dsimp only
             split
             · exact List.Perm.refl l
             · exact (ih _ _).trans (swapAt_perm l _ _))

theorem push_length (l : List α) (x : α) : (push le l x).length = l.length + 1 := by
  unfold push
  rw [siftUp_length]
  simp

theorem push_perm [DecidableEq α] (l : List α) (x : α) : (push le l x).Perm (x :: l) := by
  unfold push
  exact (siftUp_perm le _ _ _).trans (List.perm_append_singleton x l)

theorem sdtbLoop_length : ∀ (fuel : Nat) (l : List α) (pos : Nat),
    (sdtbLoop le fuel l pos).1.length = l.length := by
  intro fuel
  induction fuel with
  | zero => intro l pos; rfl
  | succ n ih =>
    intro l pos
    unfold sdtbLoop
    dsimp only
    split
    · rw [ih, swapAt_length]
    · rfl

theorem sdtbLoop_perm [DecidableEq α] : ∀ (fuel : Nat) (l : List α) (pos : Nat),
    (sdtbLoop le fuel l pos).1.Perm l := by
  intro fuel
  induction fuel with
  | zero => intro l pos; exact List.Perm.refl l
  | succ n ih =>
    intro l pos
    unfold sdtbLoop
    dsimp only
    split
    · exact (ih _ _).trans (swapAt_perm l _ _)
    · exact List.Perm.refl l

theorem siftDownToBottom_length (l : List α) (pos : Nat) :
    (siftDownToBottom le l pos).length = l.length := by
  unfold siftDownToBottom
  dsimp only
  rw [siftUp_length]
  split <;> simp [swapAt_length, sdtbLoop_length]

theorem siftDownToBottom_perm [DecidableEq α] (l : List α) (pos : Nat) :
    (siftDownToBottom le l pos).Perm l := by
  unfold siftDownToBottom
  dsimp only
  refine (siftUp_perm le _ _ _).trans ?_
  split
  · exact (swapAt_perm _ _ _).trans (sdtbLoop_perm le _ _ _)
  · exact sdtbLoop_perm le _ _ _

theorem dropLast_getLast_decomp {l : List α} {lastE : α}
    (hl : l.getLast? = some lastE) : l.dropLast ++ [lastE] = l :=
  List.dropLast_append_getLast? lastE (Option.mem_def.mpr hl)

theorem pop_eq_of_dropLast_nil {l : List α} {lastE : α}
    (hd : l.dropLast = []) (hl : l.getLast? = some lastE) :
    pop le l = some (lastE, []) := by
  unfold pop
  rw [hd, hl]

theorem pop_eq_of_dropLast_cons {l : List α} {r lastE : α} {t : List α}
    (hd : l.dropLast = r :: t) (hl : l.getLast? = some lastE) :
    pop le l = some (r, siftDownToBottom le (lastE :: t) 0) := by
  unfold pop
  rw [hd, hl]

theorem pop_none_iff (l : List α) : pop le l = none ↔ l = [] := by
  constructor
  · intro h
    rcases hl : l.getLast? with _ | lastE
    · exact List.getLast?_eq_none_iff.mp hl
    · rcases hd : l.dropLast with _ | ⟨r, t⟩
      · rw [pop_eq_of_dropLast_nil le hd hl] at h; cases h
      · rw [pop_eq_of_dropLast_cons le hd hl] at h; cases h
  · intro h
    subst h
    rfl

theorem pop_length {l : List α} {a : α} {r : List α}
    (h : pop le l = some (a, r)) : r.length + 1 = l.length := by
  rcases hl : l.getLast? with _ | lastE
  · have : l = [] := List.getLast?_eq_none_iff.mp hl
    subst this
    cases h
  · have hdec := dropLast_getLast_decomp hl
    rcases hd : l.dropLast with _ | ⟨r0, t⟩
    · rw [pop_eq_of_dropLast_nil le hd hl] at h
      cases h
      rw [hd] at hdec
      rw [← hdec]
      rfl
    · rw [pop_eq_of_dropLast_cons le hd hl] at h
      cases h
      rw [hd] at hdec
      rw [← hdec, siftDownToBottom_length]
      simp

theorem pop_perm [DecidableEq α] {l : List α} {a : α} {r : List α}
    (h : pop le l = some (a, r)) : (a :: r).Perm l := by
  rcases hl : l.getLast? with _ | lastE
  · have : l = [] := List.getLast?_eq_none_iff.mp hl
    subst this
    cases h
  · have hdec := dropLast_getLast_decomp hl
    rcases hd : l.dropLast with _ | ⟨r0, t⟩
    · rw [pop_eq_of_dropLast_nil le hd hl] at h
      cases h
      rw [hd] at hdec
      rw [← hdec]
      rfl
    · rw [pop_eq_of_dropLast_cons le hd hl] at h
      cases h
      rw [hd] at hdec
      refine (List.Perm.cons _ (siftDownToBottom_perm le _ _)).trans ?_
      rw [← hdec]
      exact (List.Perm.swap lastE a t).trans
        (List.perm_append_singleton lastE (a :: t)).symm

end HeapLemmas

end Huff

namespace Huff

/-! ## Heap sizes through the tree-building loop -/

theorem insertLe_length {α : Type} (le : α → α → Bool) (x : α) :
    ∀ l : List α, (insertLe le x l).length = l.length + 1 := by
  intro l
  induction l with
  | nil => rfl
  | cons y ys ih =>
    unfold insertLe
    split
    · rfl
    · simp [ih]

theorem sortBy_length {α : Type} (le : α → α → Bool) :
    ∀ l : List α, (sortBy le l).length = l.length := by
  intro l
  induction l with
  | nil => rfl
  | cons x xs ih => simp [sortBy, insertLe_length, ih]

theorem sortBy_perm {α : Type} [DecidableEq α] (le : α → α → Bool) :
    ∀ l : List α, (sortBy le l).Perm l := by
  have hins : ∀ (x : α) (l : List α), (insertLe le x l).Perm (x :: l) := by
    intro x l
    induction l with
    | nil => exact List.Perm.refl _
    | cons y ys ih =>
      unfold insertLe
      split
      · exact List.Perm.refl _
      · exact (List.Perm.cons y ih).trans (List.Perm.swap x y ys)
  intro l
  induction l with
  | nil => exact List.Perm.refl _
  | cons x xs ih =>
    exact (hins x (sortBy le xs)).trans (List.Perm.cons x ih)

theorem scaleLoop_length {σ : Type} :
    ∀ (fuel : Nat) (l : List (σ × Nat)), (scaleLoop fuel l).length = l.length := by
  intro fuel
  induction fuel with
  | zero => intro l; rfl
  | succ n ih =>
    intro l
    unfold scaleLoop
    split
    · rw [ih]; simp [scaleStep]
    · rfl

theorem normalizeWeights_length {σ : Type} (l : List (σ × Nat)) :
    (normalizeWeights l).length = l.length :=
  scaleLoop_length 64 l

theorem foldl_push_length {α β : Type} (le : α → α → Bool) (g : β → α) :
    ∀ (l : List β) (h : List α),
      (l.foldl (fun h x => push le h (g x)) h).length = h.length + l.length := by
  intro l
  induction l with
  | nil => intro h; simp
  | cons x xs ih =>
    intro h
    simp only [List.foldl_cons, ih, push_length, List.length_cons]
    omega

theorem foldl_push_perm {α β : Type} [DecidableEq α] (le : α → α → Bool) (g : β → α) :
    ∀ (l : List β) (h : List α),
      (l.foldl (fun h x => push le h (g x)) h).Perm (l.map g ++ h) := by
  intro l
  induction l with
  | nil => intro h; exact List.Perm.refl h
  | cons x xs ih =>
    intro h
    simp only [List.foldl_cons, List.map_cons, List.cons_append]
    refine ((ih (push le h (g x))).trans ?_)
    exact (List.Perm.append_left (xs.map g) (push_perm le h (g x))).trans List.perm_middle

theorem mergeLoop_step {σ : Type} {h h1 h2 : List (HeapNode σ)} {a b : HeapNode σ}
    (n : Nat) (hlen : 1 < h.length)
    (e1 : pop heapNodeLe h = some (a, h1)) (e2 : pop heapNodeLe h1 = some (b, h2)) :
    mergeLoop (n + 1) h = mergeLoop n (push heapNodeLe h2
      ⟨a.freq + b.freq, .internal (a.freq + b.freq) a.node b.node⟩) := by
  conv_lhs => rw [mergeLoop]
  rw [if_pos hlen, e1]
  dsimp only
  rw [e2]

theorem mergeLoop_stop {σ : Type} {h : List (HeapNode σ)} (n : Nat)
    (hlen : ¬ 1 < h.length) : mergeLoop n h = h := by
  cases n with
  | zero => rfl
  | succ m =>
    unfold mergeLoop
    rw [if_neg hlen]

theorem pop_of_nonempty {α : Type} (le : α → α → Bool) {l : List α}
    (h : l ≠ []) : ∃ a r, pop le l = some (a, r) := by
  rcases hp : pop le l with _ | ⟨a, r⟩
  · exact absurd ((pop_none_iff le l).mp hp) h
  · exact ⟨a, r, rfl⟩

theorem mergeLoop_length_one {σ : Type} :
    ∀ (fuel : Nat) (h : List (HeapNode σ)), h.length ≤ fuel + 1 → 0 < h.length →
      (mergeLoop fuel h).length = 1 := by
  intro fuel
  induction fuel with
  | zero =>
    intro h hle hpos
    have h1 : h.length = 1 := by omega
    unfold mergeLoop
    exact h1
  | succ n ih =>
    intro h hle hpos
    by_cases hlen : 1 < h.length
    · obtain ⟨a, h1, e1⟩ := pop_of_nonempty heapNodeLe
        (l := h) (by intro hnil; rw [hnil] at hlen; simp at hlen)
      have hl1 := pop_length heapNodeLe e1
      obtain ⟨b, h2, e2⟩ := pop_of_nonempty heapNodeLe
        (l := h1) (by intro hnil; rw [hnil] at hl1; simp at hl1; omega)
      have hl2 := pop_length heapNodeLe e2
      rw [mergeLoop_step n hlen e1 e2]
      refine ih _ ?_ ?_ <;> rw [push_length] <;> omega
    · rw [mergeLoop_stop _ hlen]
      omega

/-- The heap `build_huffman_tree` starts from: one leaf per entry of the
sorted, normalized table, pushed left to right. -/
def buildHeap0 (frequencies : List (Symbol × Nat)) : List (HeapNode Symbol) :=
  (sortBy (fun a b => pairCmp a b != .gt) (normalizeWeights frequencies)).foldl
    (fun h p => push heapNodeLe h ⟨p.2, .leaf p.1 p.2⟩) []

theorem buildHuffmanTree_eq (frequencies : List (Symbol × Nat)) :
    buildHuffmanTree frequencies
      = (pop heapNodeLe (mergeLoop (buildHeap0 frequencies).length
          (buildHeap0 frequencies))).map (fun x => x.1.node) := rfl

theorem buildTrace_eq (frequencies : List (Symbol × Nat)) :
    buildTrace frequencies
      = mergeTrace (buildHeap0 frequencies).length (buildHeap0 frequencies) := rfl

theorem buildHeap0_length (frequencies : List (Symbol × Nat)) :
    (buildHeap0 frequencies).length = frequencies.length := by
  unfold buildHeap0
  have h := foldl_push_length heapNodeLe
    (fun p : Symbol × Nat => HeapNode.mk p.2 (.leaf p.1 p.2))
    (sortBy (fun a b => pairCmp a b != .gt) (normalizeWeights frequencies)) []
  rw [sortBy_length, normalizeWeights_length] at h
  simpa using h

/-- C10: `build_huffman_tree` returns `None` exactly on the empty frequency
table; every non-empty table yields `Some` root, and the two in-loop
`unwrap`s only run on heaps of two or more nodes, so they cannot panic. -/
theorem c10_build_none_iff_empty (freqs : List (Symbol × Nat)) :
    buildHuffmanTree freqs = none ↔ freqs = [] := by
  rw [buildHuffmanTree_eq]
  constructor
  · intro h
    by_contra hne
    have hlen : 0 < freqs.length := List.length_pos.mpr hne
    have h0 : (buildHeap0 freqs).length = freqs.length := buildHeap0_length freqs
    have hml := mergeLoop_length_one (buildHeap0 freqs).length (buildHeap0 freqs)
      (by omega) (by omega)
    obtain ⟨a, r, e⟩ := pop_of_nonempty heapNodeLe
      (l := mergeLoop (buildHeap0 freqs).length (buildHeap0 freqs))
      (by intro hnil; rw [hnil] at hml; simp at hml)
    rw [e] at h
    cases h
  · intro h
    subst h
    rfl

end Huff

namespace Huff

/-! ## Heap-order invariants: sift-up and sift-down restore the heap shape -/

section HeapInvariant

variable {α : Type} (le : α → α → Bool)

/-- The sift-up invariant: the list is a heap except around the hole `pos` —
(1) every parent edge not incident to `pos` holds; (2) the children of `pos`
are below the element at `pos`; (3) the children of `pos` are also below the
parent of `pos`. -/
def UpInv (l : List α) (pos : Nat) : Prop :=
  (∀ i a b, 0 < i → i ≠ pos → (i - 1) / 2 ≠ pos →
      l[i]? = some a → l[(i - 1) / 2]? = some b → le a b = true)
  ∧ (∀ i a e, 0 < i → (i - 1) / 2 = pos →
      l[i]? = some a → l[pos]? = some e → le a e = true)
  ∧ (∀ i a p, 0 < i → (i - 1) / 2 = pos → 0 < pos →
      l[i]? = some a → l[(pos - 1) / 2]? = some p → le a p = true)

theorem upInv_zero_isHeap {l : List α} (h : UpInv le l 0) : IsHeap le l := by
  intro i a b hi hia hib
  by_cases hpar : (i - 1) / 2 = 0
  · exact h.2.1 i a b hi hpar hia (hpar ▸ hib)
  · exact h.1 i a b hi (by omega) hpar hia hib

theorem siftUp_step {l : List α} {pos : Nat} {e p : α} (n : Nat) (h0 : pos ≠ 0)
    (hp : l[pos]? = some e) (hq : l[(pos - 1) / 2]? = some p) :
    siftUp le (n + 1) l pos
      = if le e p then l
        else siftUp le n (swapAt l pos ((pos - 1) / 2)) ((pos - 1) / 2) := by
  conv_lhs => rw [siftUp]
  rw [if_neg h0]
  dsimp only
  rw [hp, hq]

theorem siftUp_heap (htot : ∀ a b, le a b = true ∨ le b a = true)
    (htrans : ∀ a b c, le a b = true → le b c = true → le a c = true) :
    ∀ (fuel : Nat) (l : List α) (pos : Nat), pos ≤ fuel → pos < l.length →
      UpInv le l pos → IsHeap le (siftUp le fuel l pos) := by
  intro fuel
  induction fuel with
  | zero =>
    intro l pos hle _ hinv
    have h0 : pos = 0 := by omega
    subst h0
    exact upInv_zero_isHeap le hinv
  | succ n ih =>
    intro l pos hle hlt hinv
    by_cases h0 : pos = 0
    · subst h0
      unfold siftUp
      rw [if_pos rfl]
      exact upInv_zero_isHeap le hinv
    · have hparlt : (pos - 1) / 2 < l.length := by omega
      have hp : l[pos]? = some (l[pos]) := List.getElem?_eq_getElem hlt
      have hq : l[(pos - 1) / 2]? = some (l[(pos - 1) / 2]) :=
        List.getElem?_eq_getElem hparlt
      rw [siftUp_step le n h0 hp hq]
      by_cases hle2 : le (l[pos]) (l[(pos - 1) / 2]) = true
      · rw [if_pos hle2]
        -- the loop stops here: the edge at `pos` now holds, the rest is UpInv
        intro i a b hi hia hib
        by_cases hipos : i = pos
        · subst hipos
          rw [hp] at hia
          rw [hq] at hib
          injection hia with hia2
          injection hib with hib2
          subst hia2
          subst hib2
          exact hle2
        · by_cases hpar : (i - 1) / 2 = pos
          · exact hinv.2.1 i a b hi hpar hia (hpar ▸ hib)
          · exact hinv.1 i a b hi hipos hpar hia hib
      · rw [if_neg hle2]
        have hple : le (l[(pos - 1) / 2]) (l[pos]) = true := by
          rcases htot (l[pos]) (l[(pos - 1) / 2]) with h | h
          · exact absurd h hle2
          · exact h
        have hparpos : (pos - 1) / 2 < pos := by omega
        have hswpos : (swapAt l pos ((pos - 1) / 2))[pos]?
            = some (l[(pos - 1) / 2]) := getElem?_swapAt_fst hp hq
        have hswpar : (swapAt l pos ((pos - 1) / 2))[(pos - 1) / 2]?
            = some (l[pos]) := getElem?_swapAt_snd hp hq
        have hswother : ∀ k, k ≠ pos → k ≠ (pos - 1) / 2 →
            (swapAt l pos ((pos - 1) / 2))[k]? = l[k]? :=
          fun k h1 h2 => getElem?_swapAt_other h1 h2
        refine ih (swapAt l pos ((pos - 1) / 2)) ((pos - 1) / 2) (by omega)
          (by rw [swapAt_length]; omega) ⟨?_, ?_, ?_⟩
        · -- (1) edges not incident to the new hole
          intro i a b hi hipar hiparpar hia hib
          by_cases hipos : i = pos
          · subst hipos
            exact absurd rfl hiparpar
          · by_cases hchild : (i - 1) / 2 = pos
            · -- a child of the old hole: its parent slot now holds `p`
              have hia' : l[i]? = some a := by
                rw [← hswother i hipos (by omega)]; exact hia
              rw [hchild, hswpos] at hib
              injection hib with hib2
              subst hib2
              exact hinv.2.2 i a _ hi hchild (by omega) hia' hq
            · have hia' : l[i]? = some a := by
                rw [← hswother i hipos (by omega)]; exact hia
              have hib' : l[(i - 1) / 2]? = some b := by
                rw [← hswother ((i - 1) / 2) hchild hiparpar]; exact hib
              exact hinv.1 i a b hi hipos hchild hia' hib'
        · -- (2) children of the new hole sit below its element
          intro i a e' hi hipar hia hie
          rw [hswpar] at hie
          injection hie with hie2
          subst hie2
          by_cases hipos : i = pos
          · subst hipos
            rw [hswpos] at hia
            injection hia with hia2
            subst hia2
            exact hple
          · have hia' : l[i]? = some a := by
              rw [← hswother i hipos (by omega)]; exact hia
            have hq2 : l[(i - 1) / 2]? = some (l[(pos - 1) / 2]) := by
              rw [hipar]; exact hq
            have hstep : le a (l[(pos - 1) / 2]) = true :=
              hinv.1 i a _ hi hipos (by omega) hia' hq2
            exact htrans a _ _ hstep hple
        · -- (3) children of the new hole sit below its parent
          intro i a g hi hipar hparpos0 hia hig
          have hgne1 : ((pos - 1) / 2 - 1) / 2 ≠ pos := by omega
          have hgne2 : ((pos - 1) / 2 - 1) / 2 ≠ (pos - 1) / 2 := by omega
          have hig' : l[((pos - 1) / 2 - 1) / 2]? = some g := by
            rw [← hswother (((pos - 1) / 2 - 1) / 2) hgne1 hgne2]; exact hig
          have hpg : le (l[(pos - 1) / 2]) g = true :=
            hinv.1 ((pos - 1) / 2) _ g hparpos0 (by omega) hgne1 hq hig'
          by_cases hipos : i = pos
          · subst hipos
            rw [hswpos] at hia
            injection hia with hia2
            subst hia2
            exact hpg
          · have hia' : l[i]? = some a := by
              rw [← hswother i hipos (by omega)]; exact hia
            have hq2 : l[(i - 1) / 2]? = some (l[(pos - 1) / 2]) := by
              rw [hipar]; exact hq
            have hstep : le a (l[(pos - 1) / 2]) = true :=
              hinv.1 i a _ hi hipos (by omega) hia' hq2
            exact htrans a _ g hstep hpg

theorem push_isHeap (htot : ∀ a b, le a b = true ∨ le b a = true)
    (htrans : ∀ a b c, le a b = true → le b c = true → le a c = true)
    {l : List α} (hl : IsHeap le l) (x : α) : IsHeap le (push le l x) := by
  unfold push
  refine siftUp_heap le htot htrans l.length (l ++ [x]) l.length (le_refl _)
    (by simp) ⟨?_, ?_, ?_⟩
  · intro i a b hi hipos hiparpos hia hib
    have hilen : i < l.length + 1 := by
      have := (List.getElem?_eq_some.mp hia).1
      simpa using this
    have hilt : i < l.length := by omega
    have hparlt : (i - 1) / 2 < l.length := by omega
    rw [List.getElem?_append, if_pos hilt] at hia
    rw [List.getElem?_append, if_pos hparlt] at hib
    exact hl i a b hi hia hib
  · intro i a e hi hipar hia _
    have hilen : i < l.length + 1 := by
      have := (List.getElem?_eq_some.mp hia).1
      simpa using this
    omega
  · intro i a p hi hipar _ hia _
    have hilen : i < l.length + 1 := by
      have := (List.getElem?_eq_some.mp hia).1
      simpa using this
    omega

/-- The sift-down invariant: every parent edge not incident to the hole
`pos` holds, and the children of `pos` are below the parent of `pos`.
(Nothing is assumed about the element parked at `pos`.) -/
def DownInv (l : List α) (pos : Nat) : Prop :=
  (∀ i a b, 0 < i → i ≠ pos → (i - 1) / 2 ≠ pos →
      l[i]? = some a → l[(i - 1) / 2]? = some b → le a b = true)
  ∧ (∀ i a p, 0 < i → (i - 1) / 2 = pos → 0 < pos →
      l[i]? = some a → l[(pos - 1) / 2]? = some p → le a p = true)

/-- Moving the hole to a maximal child preserves the sift-down invariant. -/
theorem downInv_swap_child {l : List α} {pos c o : Nat} {cv ov : α}
    (hinv : DownInv le l pos) (hpos : pos < l.length)
    (hc : c = 2 * pos + 1 ∨ c = 2 * pos + 2)
    (ho : o = 2 * pos + 1 ∨ o = 2 * pos + 2) (hco : c ≠ o)
    (hcv : l[c]? = some cv) (hov : l[o]? = some ov)
    (hle : le ov cv = true) :
    DownInv le (swapAt l pos c) c := by
  have hclt : c < l.length := (List.getElem?_eq_some.mp hcv).1
  have hppos : l[pos]? = some (l[pos]) := List.getElem?_eq_getElem hpos
  have hswpos : (swapAt l pos c)[pos]? = some cv := getElem?_swapAt_fst hppos hcv
  have hswc : (swapAt l pos c)[c]? = some (l[pos]) := getElem?_swapAt_snd hppos hcv
  have hswo : ∀ k, k ≠ pos → k ≠ c → (swapAt l pos c)[k]? = l[k]? :=
    fun k h1 h2 => getElem?_swapAt_other h1 h2
  constructor
  · intro i a b hi hic hiparc hia hib
    by_cases hipos : i = pos
    · -- the edge from the old hole `pos` up to its parent
      rw [hipos] at hi hia hib
      have hpp1 : (pos - 1) / 2 ≠ pos := by omega
      have hpp2 : (pos - 1) / 2 ≠ c := by omega
      rw [hswpos] at hia
      injection hia with hia2
      subst hia2
      have hib' : l[(pos - 1) / 2]? = some b := by
        rw [← hswo ((pos - 1) / 2) hpp1 hpp2]; exact hib
      exact hinv.2 c _ b (by omega) (by omega) hi hcv hib'
    · by_cases hchild : (i - 1) / 2 = pos
      · -- the skipped sibling keeps an edge to the promoted child value
        have hio : i = o := by omega
        subst hio
        have hia' : l[i]? = some a := by
          rw [← hswo i hipos hic]; exact hia
        rw [hchild, hswpos] at hib
        injection hib with hib2
        subst hib2
        rw [hov] at hia'
        injection hia' with hia2
        subst hia2
        exact hle
      · have hia' : l[i]? = some a := by
          rw [← hswo i hipos hic]; exact hia
        have hib' : l[(i - 1) / 2]? = some b := by
          rw [← hswo ((i - 1) / 2) hchild hiparc]; exact hib
        exact hinv.1 i a b hi hipos hchild hia' hib'
  · intro i a p hi hipar hposc hia hip
    have hcpar : (c - 1) / 2 = pos := by omega
    rw [hcpar, hswpos] at hip
    injection hip with hip2
    subst hip2
    have hi1 : i ≠ pos := by omega
    have hi2 : i ≠ c := by omega
    have hia' : l[i]? = some a := by
      rw [← hswo i hi1 hi2]; exact hia
    have hcval' : l[(i - 1) / 2]? = some cv := by rw [hipar]; exact hcv
    exact hinv.1 i a cv hi hi1 (by omega) hia' hcval'

/-- When the hole has no children, the sift-down invariant is already the
sift-up invariant. -/
theorem downInv_to_upInv_no_children {l : List α} {pos : Nat}
    (hinv : DownInv le l pos) (hnc : l.length ≤ 2 * pos + 1) :
    UpInv le l pos := by
  refine ⟨hinv.1, ?_, ?_⟩
  · intro i a e hi hipar hia _
    have := (List.getElem?_eq_some.mp hia).1
    omega
  · intro i a p hi hipar _ hia _
    have := (List.getElem?_eq_some.mp hia).1
    omega

/-- The final move onto a lone left child (which is the last array slot)
turns the sift-down invariant into the sift-up invariant at that slot. -/
theorem downInv_swap_only_child {l : List α} {pos : Nat}
    (hinv : DownInv le l pos) (hpos : pos < l.length)
    (hc : 2 * pos + 1 + 1 = l.length) :
    UpInv le (swapAt l pos (2 * pos + 1)) (2 * pos + 1) := by
  have hclt : 2 * pos + 1 < l.length := by omega
  have hppos : l[pos]? = some (l[pos]) := List.getElem?_eq_getElem hpos
  have hcv : l[2 * pos + 1]? = some (l[2 * pos + 1]) := List.getElem?_eq_getElem hclt
  have hswpos : (swapAt l pos (2 * pos + 1))[pos]? = some (l[2 * pos + 1]) :=
    getElem?_swapAt_fst hppos hcv
  have hswc : (swapAt l pos (2 * pos + 1))[2 * pos + 1]? = some (l[pos]) :=
    getElem?_swapAt_snd hppos hcv
  have hswo : ∀ k, k ≠ pos → k ≠ 2 * pos + 1 →
      (swapAt l pos (2 * pos + 1))[k]? = l[k]? :=
    fun k h1 h2 => getElem?_swapAt_other h1 h2
  have hlen : (swapAt l pos (2 * pos + 1)).length = l.length := swapAt_length l _ _
  refine ⟨?_, ?_, ?_⟩
  · intro i a b hi hic hiparc hia hib
    by_cases hipos : i = pos
    · rw [hipos] at hi hia hib
      have hpp1 : (pos - 1) / 2 ≠ pos := by omega
      have hpp2 : (pos - 1) / 2 ≠ 2 * pos + 1 := by omega
      rw [hswpos] at hia
      injection hia with hia2
      subst hia2
      have hib' : l[(pos - 1) / 2]? = some b := by
        rw [← hswo ((pos - 1) / 2) hpp1 hpp2]; exact hib
      exact hinv.2 (2 * pos + 1) _ b (by omega) (by omega) hi hcv hib'
    · by_cases hchild : (i - 1) / 2 = pos
      · -- the only other child slot is `2*pos+2 = length`: out of range
        have hibound := (List.getElem?_eq_some.mp hia).1
        rw [hlen] at hibound
        omega
      · have hia' : l[i]? = some a := by
          rw [← hswo i hipos hic]; exact hia
        have hib' : l[(i - 1) / 2]? = some b := by
          rw [← hswo ((i - 1) / 2) hchild hiparc]; exact hib
        exact hinv.1 i a b hi hipos hchild hia' hib'
  · intro i a e hi hipar hia _
    have := (List.getElem?_eq_some.mp hia).1
    rw [hlen] at this
    omega
  · intro i a p hi hipar _ hia _
    have := (List.getElem?_eq_some.mp hia).1
    rw [hlen] at this
    omega

theorem sdtbLoop_step {l : List α} {pos : Nat} {c1 c2 : α} (n : Nat)
    (hg : 2 * pos + 1 + 1 < l.length)
    (h1 : l[2 * pos + 1]? = some c1) (h2 : l[2 * pos + 1 + 1]? = some c2) :
    sdtbLoop le (n + 1) l pos
      = sdtbLoop le n
          (swapAt l pos (if le c1 c2 then 2 * pos + 1 + 1 else 2 * pos + 1))
          (if le c1 c2 then 2 * pos + 1 + 1 else 2 * pos + 1) := by
  conv_lhs => rw [sdtbLoop]
  dsimp only
  rw [if_pos hg, h1, h2]

theorem sdtbLoop_stop {l : List α} {pos : Nat} (n : Nat)
    (hg : ¬ 2 * pos + 1 + 1 < l.length) :
    sdtbLoop le (n + 1) l pos = (l, pos) := by
  conv_lhs => rw [sdtbLoop]
  dsimp only
  rw [if_neg hg]

theorem sdtbLoop_spec (htot : ∀ a b, le a b = true ∨ le b a = true) :
    ∀ (fuel : Nat) (l : List α) (pos : Nat), pos < l.length →
      l.length ≤ fuel + pos → DownInv le l pos →
      pos ≤ (sdtbLoop le fuel l pos).2
      ∧ (sdtbLoop le fuel l pos).2 < l.length
      ∧ DownInv le (sdtbLoop le fuel l pos).1 (sdtbLoop le fuel l pos).2
      ∧ ¬ (2 * (sdtbLoop le fuel l pos).2 + 2 < l.length) := by
  intro fuel
  induction fuel with
  | zero =>
    intro l pos hpos hfuel _
    omega
  | succ n ih =>
    intro l pos hpos hfuel hinv
    by_cases hg : 2 * pos + 1 + 1 < l.length
    · have hc1lt : 2 * pos + 1 < l.length := by omega
      have h1 : l[2 * pos + 1]? = some (l[2 * pos + 1]) :=
        List.getElem?_eq_getElem hc1lt
      have h2 : l[2 * pos + 1 + 1]? = some (l[2 * pos + 1 + 1]) :=
        List.getElem?_eq_getElem hg
      rw [sdtbLoop_step le n hg h1 h2]
      by_cases hch : le (l[2 * pos + 1]) (l[2 * pos + 1 + 1]) = true
      · rw [if_pos hch]
        have hinv' : DownInv le (swapAt l pos (2 * pos + 1 + 1)) (2 * pos + 1 + 1) :=
          downInv_swap_child le hinv hpos (Or.inr rfl) (Or.inl rfl)
            (by omega) h2 h1 hch
        have hres := ih (swapAt l pos (2 * pos + 1 + 1)) (2 * pos + 1 + 1)
          (by rw [swapAt_length]; omega) (by rw [swapAt_length]; omega) hinv'
        rw [swapAt_length] at hres
        exact ⟨by omega, hres.2.1, hres.2.2.1, hres.2.2.2⟩
      · rw [if_neg hch]
        have hle : le (l[2 * pos + 1 + 1]) (l[2 * pos + 1]) = true := by
          rcases htot (l[2 * pos + 1]) (l[2 * pos + 1 + 1]) with h | h
          · exact absurd h hch
          · exact h
        have hinv' : DownInv le (swapAt l pos (2 * pos + 1)) (2 * pos + 1) :=
          downInv_swap_child le hinv hpos (Or.inl rfl) (Or.inr rfl)
            (by omega) h1 h2 hle
        have hres := ih (swapAt l pos (2 * pos + 1)) (2 * pos + 1)
          (by rw [swapAt_length]; omega) (by rw [swapAt_length]; omega) hinv'
        rw [swapAt_length] at hres
        exact ⟨by omega, hres.2.1, hres.2.2.1, hres.2.2.2⟩
    · rw [sdtbLoop_stop le n hg]
      exact ⟨le_refl pos, hpos, hinv, by omega⟩

theorem siftDownToBottom_heap (htot : ∀ a b, le a b = true ∨ le b a = true)
    (htrans : ∀ a b c, le a b = true → le b c = true → le a c = true)
    {l : List α} {pos : Nat} (hpos : pos < l.length) (hinv : DownInv le l pos) :
    IsHeap le (siftDownToBottom le l pos) := by
  have hspec := sdtbLoop_spec le htot l.length l pos hpos (by omega) hinv
  have hslen : (sdtbLoop le l.length l pos).1.length = l.length :=
    sdtbLoop_length le l.length l pos
  unfold siftDownToBottom
  dsimp only
  by_cases hfin : 2 * (sdtbLoop le l.length l pos).2 + 1 + 1
      = (sdtbLoop le l.length l pos).1.length
  · rw [if_pos hfin]
    have hup := downInv_swap_only_child le hspec.2.2.1
      (by rw [hslen]; exact hspec.2.1) (by rw [← hslen] at *; exact hfin)
    refine siftUp_heap le htot htrans _ _ _ (le_refl _) ?_ hup
    rw [swapAt_length, hslen]
    omega
  · rw [if_neg hfin]
    have hnc : (sdtbLoop le l.length l pos).1.length
        ≤ 2 * (sdtbLoop le l.length l pos).2 + 1 := by
      rw [hslen]
      have h4 := hspec.2.2.2
      rw [hslen] at hfin
      omega
    have hup := downInv_to_upInv_no_children le hspec.2.2.1 hnc
    refine siftUp_heap le htot htrans _ _ _ (le_refl _) ?_ hup
    rw [hslen]
    exact hspec.2.1

theorem pop_isHeap (htot : ∀ a b, le a b = true ∨ le b a = true)
    (htrans : ∀ a b c, le a b = true → le b c = true → le a c = true)
    {l : List α} {a : α} {r : List α}
    (hl : IsHeap le l) (h : pop le l = some (a, r)) : IsHeap le r := by
  rcases hgl : l.getLast? with _ | lastE
  · have : l = [] := List.getLast?_eq_none_iff.mp hgl
    subst this
    cases h
  · have hdec := dropLast_getLast_decomp hgl
    rcases hd : l.dropLast with _ | ⟨r0, t⟩
    · rw [pop_eq_of_dropLast_nil le hd hgl] at h
      cases h
      intro i x y hi hx _
      have hb := (List.getElem?_eq_some.mp hx).1
      simp at hb
    · rw [pop_eq_of_dropLast_cons le hd hgl] at h
      cases h
      have hlform : l = a :: (t ++ [lastE]) := by
        rw [hd] at hdec
        simpa using hdec.symm
      have hlen0 : 0 < (lastE :: t).length := by simp
      refine siftDownToBottom_heap le htot htrans hlen0 ⟨?_, ?_⟩
      · -- positions 1.. of `lastE :: t` coincide with positions 1.. of `l`
        intro i x y hi hipos hiparpos hx hy
        have hib := (List.getElem?_eq_some.mp hx).1
        simp only [List.length_cons] at hib
        have hxl : l[i]? = some x := by
          rw [hlform]
          rcases i with _ | i2
          · omega
          · simp only [List.getElem?_cons_succ]
            rw [List.getElem?_append, if_pos (by omega)]
            simpa using hx
        have hyl : l[(i - 1) / 2]? = some y := by
          rw [hlform]
          rcases hpc : (i - 1) / 2 with _ | j2
          · omega
          · simp only [List.getElem?_cons_succ]
            rw [List.getElem?_append, if_pos (by omega)]
            rw [hpc] at hy
            simpa using hy
        exact hl i x y hi hxl hyl
      · intro i x p hi hipar hpos0 _ _
        omega

theorem heap_le_root (htot : ∀ a b, le a b = true ∨ le b a = true)
    (htrans : ∀ a b c, le a b = true → le b c = true → le a c = true)
    {l : List α} (hl : IsHeap le l) :
    ∀ (i : Nat) (a r0 : α), l[i]? = some a → l[0]? = some r0 → le a r0 = true := by
  intro i
  induction i using Nat.strong_induction_on with
  | _ i ih =>
    intro a r0 hia h0
    rcases Nat.eq_zero_or_pos i with h | h
    · subst h
      rw [h0] at hia
      injection hia with h2
      subst h2
      rcases htot r0 r0 with ht | ht <;> exact ht
    · have hilt := (List.getElem?_eq_some.mp hia).1
      have hparlt : (i - 1) / 2 < l.length := by omega
      have hpar : l[(i - 1) / 2]? = some (l[(i - 1) / 2]) :=
        List.getElem?_eq_getElem hparlt
      have hstep := hl i a _ h hia hpar
      have hrec := ih ((i - 1) / 2) (by omega) _ r0 hpar h0
      exact htrans _ _ _ hstep hrec

theorem pop_root {l : List α} {a : α} {r : List α}
    (h : pop le l = some (a, r)) : l[0]? = some a := by
  rcases hgl : l.getLast? with _ | lastE
  · have : l = [] := List.getLast?_eq_none_iff.mp hgl
    subst this
    cases h
  · have hdec := dropLast_getLast_decomp hgl
    rcases hd : l.dropLast with _ | ⟨r0, t⟩
    · rw [pop_eq_of_dropLast_nil le hd hgl] at h
      cases h
      rw [hd] at hdec
      rw [← hdec]
      simp
    · rw [pop_eq_of_dropLast_cons le hd hgl] at h
      cases h
      rw [hd] at hdec
      rw [← hdec]
      simp

theorem pop_max (htot : ∀ a b, le a b = true ∨ le b a = true)
    (htrans : ∀ a b c, le a b = true → le b c = true → le a c = true)
    {l : List α} {a : α} {r : List α}
    (hl : IsHeap le l) (h : pop le l = some (a, r)) :
    ∀ x ∈ l, le x a = true := by
  intro x hx
  rcases List.getElem_of_mem hx with ⟨i, hilt, hival⟩
  exact heap_le_root le htot htrans hl i x a
    (by rw [← hival]; exact List.getElem?_eq_getElem hilt) (pop_root le h)

end HeapInvariant

end Huff

namespace Huff

/-! ## Order theory of the source comparators -/

theorem lexCmp_not_gt_trans : ∀ s t u : List Nat,
    lexCmp s t ≠ .gt → lexCmp t u ≠ .gt → lexCmp s u ≠ .gt := by
  intro s
  induction s with
  | nil =>
    intro t u _ _
    cases u <;> simp [lexCmp]
  | cons a as ih =>
    intro t u hst htu
    cases t with
    | nil => simp [lexCmp] at hst
    | cons b bs =>
      cases u with
      | nil => simp [lexCmp] at htu
      | cons c cs =>
        simp only [lexCmp] at hst htu ⊢
        rcases hab : compare a b with _ | _ | _ <;> rw [hab] at hst
        · -- a < b
          have hbc : ¬ c < b := by
            intro hlt
            rw [(Nat.compare_eq_gt).mpr hlt] at htu
            simp [Ordering.then] at htu
          have hac : a < c := by
            have := Nat.compare_eq_lt.mp hab
            omega
          rw [Nat.compare_eq_lt.mpr hac]
          simp [Ordering.then]
        · -- a = b
          have hab' : a = b := Nat.compare_eq_eq.mp hab
          subst hab'
          rcases hac : compare a c with _ | _ | _ <;> rw [hac] at htu
          · simp [Ordering.then]
          · simp only [Ordering.then] at hst htu ⊢
            exact ih bs cs hst htu
          · simp [Ordering.then] at htu
        · simp [Ordering.then] at hst

theorem lexCmp_not_gt_antisymm : ∀ s t : List Nat,
    lexCmp s t ≠ .gt → lexCmp t s ≠ .gt → s = t := by
  intro s
  induction s with
  | nil =>
    intro t _ hts
    cases t with
    | nil => rfl
    | cons b bs => simp [lexCmp] at hts
  | cons a as ih =>
    intro t hst hts
    cases t with
    | nil => simp [lexCmp] at hst
    | cons b bs =>
      simp only [lexCmp] at hst hts
      rcases hab : compare a b with _ | _ | _ <;> rw [hab] at hst
      · have : compare b a = .gt := Nat.compare_eq_gt.mpr (Nat.compare_eq_lt.mp hab)
        rw [this] at hts
        simp [Ordering.then] at hts
      · have hab' : a = b := Nat.compare_eq_eq.mp hab
        subst hab'
        have : compare a a = .eq := Nat.compare_eq_eq.mpr rfl
        rw [this] at hts
        simp only [Ordering.then] at hst hts
        rw [ih bs hst hts]
      · simp [Ordering.then] at hst

theorem lexCmp_total : ∀ s t : List Nat, lexCmp s t ≠ .gt ∨ lexCmp t s ≠ .gt := by
  intro s
  induction s with
  | nil =>
    intro t
    left
    cases t <;> simp [lexCmp]
  | cons a as ih =>
    intro t
    cases t with
    | nil => right; simp [lexCmp]
    | cons b bs =>
      simp only [lexCmp]
      rcases hab : compare a b with _ | _ | _
      · left; simp [Ordering.then]
      · have hab' : a = b := Nat.compare_eq_eq.mp hab
        subst hab'
        have heq : compare a a = .eq := Nat.compare_eq_eq.mpr rfl
        rw [heq]
        simp only [Ordering.then]
        exact ih bs
      · right
        have : compare b a = .lt := Nat.compare_eq_lt.mpr (Nat.compare_eq_gt.mp hab)
        rw [this]
        simp [Ordering.then]

/-- `heapNodeLe a b` says exactly that `b`'s weight is at most `a`'s: the
reversed comparison makes Rust's max-heap a min-heap on weights. -/
theorem heapNodeLe_iff {σ : Type} (a b : HeapNode σ) :
    heapNodeLe a b = true ↔ b.freq ≤ a.freq := by
  unfold heapNodeLe heapNodeCmp
  rcases h : compare b.freq a.freq with _ | _ | _
  · have hlt := Nat.compare_eq_lt.mp h
    exact ⟨fun _ => by omega, fun _ => rfl⟩
  · have heq := Nat.compare_eq_eq.mp h
    exact ⟨fun _ => by omega, fun _ => rfl⟩
  · have hgt := Nat.compare_eq_gt.mp h
    constructor
    · intro hx
      exact absurd hx (by decide)
    · intro hx
      exact absurd hx (by omega)

theorem heapNodeLe_total {σ : Type} (a b : HeapNode σ) :
    heapNodeLe a b = true ∨ heapNodeLe b a = true := by
  rw [heapNodeLe_iff, heapNodeLe_iff]
  omega

theorem heapNodeLe_trans {σ : Type} (a b c : HeapNode σ) :
    heapNodeLe a b = true → heapNodeLe b c = true → heapNodeLe a c = true := by
  rw [heapNodeLe_iff, heapNodeLe_iff, heapNodeLe_iff]
  omega

end Huff

namespace Huff

theorem ordBne_iff {x y : Ordering} : (x != y) = true ↔ x ≠ y := by
  cases x <;> cases y <;> decide

/-- The tie part of `huffman.rs` `Node::cmp` at equal weights, as a
proposition (used only to state lemmas about `nodeLe`). -/
def nodeTie : HTree Symbol → HTree Symbol → Prop
  | .leaf s1 _, .leaf s2 _ => lexCmp s1 s2 ≠ .gt
  | .leaf _ _, .internal _ _ _ => True
  | .internal _ _ _, .leaf _ _ => False
  | .internal _ _ _, .internal _ _ _ => True

theorem nodeLe_iff (a b : HTree Symbol) :
    nodeLe a b = true ↔ (b.freq < a.freq ∨ (b.freq = a.freq ∧ nodeTie a b)) := by
  unfold nodeLe nodeCmp
  rcases h : compare b.freq a.freq with _ | _ | _
  · have hlt := Nat.compare_eq_lt.mp h
    simp only [if_pos (by decide : (Ordering.lt : Ordering) ≠ .eq)]
    constructor
    · intro _; exact Or.inl hlt
    · intro _; rfl
  · have heq := Nat.compare_eq_eq.mp h
    simp only [if_neg (by simp : ¬ (Ordering.eq : Ordering) ≠ .eq)]
    cases a with
    | leaf s1 f1 =>
      cases b with
      | leaf s2 f2 =>
        simp only [nodeTie]
        constructor
        · intro hx; exact Or.inr ⟨heq, ordBne_iff.mp hx⟩
        · rintro (hx | ⟨_, hx⟩)
          · omega
          · exact ordBne_iff.mpr hx
      | internal f2 l2 r2 =>
        simp only [nodeTie]
        constructor
        · intro _; exact Or.inr ⟨heq, trivial⟩
        · intro _; decide
    | internal f1 l1 r1 =>
      cases b with
      | leaf s2 f2 =>
        simp only [nodeTie]
        constructor
        · intro hx; exact absurd hx (by decide)
        · rintro (hx | ⟨_, hx⟩)
          · omega
          · exact hx.elim
      | internal f2 l2 r2 =>
        simp only [nodeTie]
        constructor
        · intro _; exact Or.inr ⟨heq, trivial⟩
        · intro _; decide
  · have hgt := Nat.compare_eq_gt.mp h
    simp only [if_pos (by decide : (Ordering.gt : Ordering) ≠ .eq)]
    constructor
    · intro hx; exact absurd hx (by decide)
    · rintro (hx | ⟨hx, _⟩) <;> omega

theorem nodeTie_trans {a b c : HTree Symbol} :
    nodeTie a b → nodeTie b c → nodeTie a c := by
  cases a <;> cases b <;> cases c <;> simp only [nodeTie] <;>
    first
      | (intro h1 h2; exact lexCmp_not_gt_trans _ _ _ h1 h2)
      | (intro h1 h2; exact h1.elim)
      | (intro h1 h2; exact h2.elim)
      | (intro _ _; trivial)
      | (intro _; trivial)

theorem nodeLe_total (a b : HTree Symbol) :
    nodeLe a b = true ∨ nodeLe b a = true := by
  rw [nodeLe_iff, nodeLe_iff]
  rcases Nat.lt_trichotomy a.freq b.freq with h | h | h
  · exact Or.inr (Or.inl h)
  · cases a with
    | leaf s1 f1 =>
      cases b with
      | leaf s2 f2 =>
        rcases lexCmp_total s1 s2 with hx | hx
        · exact Or.inl (Or.inr ⟨h.symm, hx⟩)
        · exact Or.inr (Or.inr ⟨h, hx⟩)
      | internal f2 l2 r2 => exact Or.inl (Or.inr ⟨h.symm, trivial⟩)
    | internal f1 l1 r1 =>
      cases b with
      | leaf s2 f2 => exact Or.inr (Or.inr ⟨h, trivial⟩)
      | internal f2 l2 r2 => exact Or.inl (Or.inr ⟨h.symm, trivial⟩)
  · exact Or.inl (Or.inl h)

theorem nodeLe_trans (a b c : HTree Symbol) :
    nodeLe a b = true → nodeLe b c = true → nodeLe a c = true := by
  rw [nodeLe_iff, nodeLe_iff, nodeLe_iff]
  rintro (h1 | ⟨h1, t1⟩) (h2 | ⟨h2, t2⟩)
  · exact Or.inl (by omega)
  · exact Or.inl (by omega)
  · exact Or.inl (by omega)
  · exact Or.inr ⟨by omega, nodeTie_trans t1 t2⟩

theorem nodeLe_antisymm_leaf {s1 s2 : Symbol} {f1 f2 : Nat}
    (h1 : nodeLe (.leaf s1 f1) (.leaf s2 f2) = true)
    (h2 : nodeLe (.leaf s2 f2) (.leaf s1 f1) = true) :
    s1 = s2 ∧ f1 = f2 := by
  rw [nodeLe_iff] at h1 h2
  simp only [HTree.freq, nodeTie] at h1 h2
  have hf : f1 = f2 := by omega
  subst hf
  have hx1 : lexCmp s1 s2 ≠ .gt := by
    rcases h1 with h | ⟨_, h⟩
    · omega
    · exact h
  have hx2 : lexCmp s2 s1 ≠ .gt := by
    rcases h2 with h | ⟨_, h⟩
    · omega
    · exact h
  exact ⟨lexCmp_not_gt_antisymm s1 s2 hx1 hx2, rfl⟩

theorem pairLe_iff (p q : Symbol × Nat) :
    (pairCmp p q != .gt) = true
      ↔ (p.2 < q.2 ∨ (p.2 = q.2 ∧ lexCmp q.1 p.1 ≠ .gt)) := by
  unfold pairCmp
  rcases h : compare p.2 q.2 with _ | _ | _
  · have hlt := Nat.compare_eq_lt.mp h
    simp only [Ordering.then]
    constructor
    · intro _; exact Or.inl hlt
    · intro _; rfl
  · have heq := Nat.compare_eq_eq.mp h
    simp only [Ordering.then]
    constructor
    · intro hx; exact Or.inr ⟨heq, ordBne_iff.mp hx⟩
    · rintro (hx | ⟨_, hx⟩)
      · omega
      · exact ordBne_iff.mpr hx
  · have hgt := Nat.compare_eq_gt.mp h
    simp only [Ordering.then]
    constructor
    · intro hx; exact absurd hx (by decide)
    · rintro (hx | ⟨hx, _⟩) <;> omega

theorem pairLe_total (p q : Symbol × Nat) :
    (pairCmp p q != .gt) = true ∨ (pairCmp q p != .gt) = true := by
  rw [pairLe_iff, pairLe_iff]
  rcases Nat.lt_trichotomy p.2 q.2 with h | h | h
  · exact Or.inl (Or.inl h)
  · rcases lexCmp_total q.1 p.1 with hx | hx
    · exact Or.inl (Or.inr ⟨h, hx⟩)
    · exact Or.inr (Or.inr ⟨h.symm, hx⟩)
  · exact Or.inr (Or.inl h)

theorem pairLe_trans (p q r : Symbol × Nat) :
    (pairCmp p q != .gt) = true → (pairCmp q r != .gt) = true →
      (pairCmp p r != .gt) = true := by
  rw [pairLe_iff, pairLe_iff, pairLe_iff]
  rintro (h1 | ⟨h1, t1⟩) (h2 | ⟨h2, t2⟩)
  · exact Or.inl (by omega)
  · exact Or.inl (by omega)
  · exact Or.inl (by omega)
  · exact Or.inr ⟨by omega, lexCmp_not_gt_trans _ _ _ t2 t1⟩

theorem pairLe_antisymm (p q : Symbol × Nat)
    (h1 : (pairCmp p q != .gt) = true) (h2 : (pairCmp q p != .gt) = true) :
    p = q := by
  rw [pairLe_iff] at h1 h2
  have hf : p.2 = q.2 := by omega
  have hx1 : lexCmp q.1 p.1 ≠ .gt := by
    rcases h1 with h | ⟨_, h⟩
    · omega
    · exact h
  have hx2 : lexCmp p.1 q.1 ≠ .gt := by
    rcases h2 with h | ⟨_, h⟩
    · omega
    · exact h
  have hs : q.1 = p.1 := lexCmp_not_gt_antisymm q.1 p.1 hx1 hx2
  exact Prod.ext hs.symm hf

end Huff

namespace Huff

/-! ## Heap draining: `popAll` is a sorted permutation of the contents -/

section PopAll

variable {α : Type} (le : α → α → Bool)

theorem popAll_perm [DecidableEq α] :
    ∀ (fuel : Nat) (l : List α), l.length ≤ fuel → (popAll le fuel l).Perm l := by
  intro fuel
  induction fuel with
  | zero =>
    intro l hlen
    have : l = [] := List.eq_nil_of_length_eq_zero (by omega)
    subst this
    exact List.Perm.refl _
  | succ n ih =>
    intro l hlen
    unfold popAll
    rcases hp : pop le l with _ | ⟨a, r⟩
    · have : l = [] := (pop_none_iff le l).mp hp
      subst this
      exact List.Perm.refl _
    · have hl := pop_length le hp
      exact (List.Perm.cons a (ih r (by omega))).trans (pop_perm le hp)

theorem popAll_sorted [DecidableEq α]
    (htot : ∀ a b, le a b = true ∨ le b a = true)
    (htrans : ∀ a b c, le a b = true → le b c = true → le a c = true) :
    ∀ (fuel : Nat) (l : List α), l.length ≤ fuel → IsHeap le l →
      List.Pairwise (fun a b => le b a = true) (popAll le fuel l) := by
  intro fuel
  induction fuel with
  | zero => intro l _ _; exact List.Pairwise.nil
  | succ n ih =>
    intro l hlen hheap
    unfold popAll
    rcases hp : pop le l with _ | ⟨a, r⟩
    · exact List.Pairwise.nil
    · have hl := pop_length le hp
      refine List.Pairwise.cons ?_ (ih r (by omega) (pop_isHeap le htot htrans hheap hp))
      intro b hb
      have hbr : b ∈ r := ((popAll_perm le n r (by omega)).mem_iff).mp hb
      have hbl : b ∈ l := ((pop_perm le hp).mem_iff).mp (List.mem_cons_of_mem a hbr)
      exact pop_max le htot htrans hheap hp b hbl

end PopAll

/-- Two lists that are permutations of each other and both sorted by a
relation antisymmetric on their elements are equal. -/
theorem sorted_perm_unique {α : Type} {R : α → α → Prop} :
    ∀ (l₁ l₂ : List α), l₁.Perm l₂ → l₁.Pairwise R → l₂.Pairwise R →
      (∀ a b, a ∈ l₁ → b ∈ l₁ → R a b → R b a → a = b) → l₁ = l₂ := by
  intro l₁
  induction l₁ with
  | nil =>
    intro l₂ hperm _ _ _
    exact (List.Perm.nil_eq hperm).symm ▸ rfl
  | cons a t₁ ih =>
    intro l₂ hperm hs₁ hs₂ hanti
    cases l₂ with
    | nil => exact absurd hperm.symm (by simp)
    | cons b t₂ =>
      have hab : a = b := by
        have hamem : a ∈ b :: t₂ := hperm.mem_iff.mp (List.mem_cons_self a t₁)
        have hbmem : b ∈ a :: t₁ := hperm.symm.mem_iff.mp (List.mem_cons_self b t₂)
        rcases List.mem_cons.mp hamem with h | hat₂
        · exact h
        · rcases List.mem_cons.mp hbmem with h | hbt₁
          · exact h.symm
          · have hRab : R a b := (List.pairwise_cons.mp hs₁).1 b hbt₁
            have hRba : R b a := (List.pairwise_cons.mp hs₂).1 a hat₂
            exact hanti a b (List.mem_cons_self a t₁)
              (List.mem_cons_of_mem a hbt₁) hRab hRba
      subst hab
      have htperm : t₁.Perm t₂ := hperm.cons_inv
      have ht : t₁ = t₂ := by
        refine ih t₂ htperm (List.pairwise_cons.mp hs₁).2 (List.pairwise_cons.mp hs₂).2 ?_
        intro x y hx hy
        exact hanti x y (List.mem_cons_of_mem a hx) (List.mem_cons_of_mem a hy)
      rw [ht]

/-! ## The stable sort: sortedness and canonicity -/

theorem insertLe_perm {α : Type} (le : α → α → Bool) (x : α) :
    ∀ l : List α, (insertLe le x l).Perm (x :: l) := by
  intro l
  induction l with
  | nil => exact List.Perm.refl _
  | cons y ys ih =>
    unfold insertLe
    split
    · exact List.Perm.refl _
    · exact (List.Perm.cons y ih).trans (List.Perm.swap x y ys)

theorem insertLe_mem {α : Type} (le : α → α → Bool) (x z : α) (l : List α)
    (h : z ∈ insertLe le x l) : z = x ∨ z ∈ l := by
  have := (insertLe_perm le x l).mem_iff.mp h
  simpa using this

theorem insertLe_pairwise {α : Type} (le : α → α → Bool)
    (htot : ∀ a b, le a b = true ∨ le b a = true)
    (htrans : ∀ a b c, le a b = true → le b c = true → le a c = true) (x : α) :
    ∀ l : List α, List.Pairwise (fun a b => le a b = true) l →
      List.Pairwise (fun a b => le a b = true) (insertLe le x l) := by
  intro l
  induction l with
  | nil => intro _; simp [insertLe]
  | cons y ys ih =>
    intro hp
    unfold insertLe
    rcases List.pairwise_cons.mp hp with ⟨hy, hys⟩
    by_cases hxy : le x y = true
    · rw [if_pos hxy]
      refine List.Pairwise.cons ?_ hp
      intro z hz
      rcases List.mem_cons.mp hz with rfl | hz'
      · exact hxy
      · exact htrans x y z hxy (hy z hz')
    · rw [if_neg hxy]
      have hyx : le y x = true := by
        rcases htot x y with h | h
        · exact absurd h hxy
        · exact h
      refine List.Pairwise.cons ?_ (ih hys)
      intro z hz
      rcases insertLe_mem le x z ys hz with rfl | hz'
      · exact hyx
      · exact hy z hz'

theorem sortBy_pairwise {α : Type} (le : α → α → Bool)
    (htot : ∀ a b, le a b = true ∨ le b a = true)
    (htrans : ∀ a b c, le a b = true → le b c = true → le a c = true) :
    ∀ l : List α, List.Pairwise (fun a b => le a b = true) (sortBy le l) := by
  intro l
  induction l with
  | nil => exact List.Pairwise.nil
  | cons x xs ih => exact insertLe_pairwise le htot htrans x (sortBy le xs) ih

/-- The sorts in `build_huffman_tree` are canonical: permuted inputs (the
arbitrary `HashMap` iteration orders) sort to the same list, because the
source comparators are antisymmetric total preorders. -/
theorem sortBy_eq_of_perm {α : Type} [DecidableEq α] (le : α → α → Bool)
    (htot : ∀ a b, le a b = true ∨ le b a = true)
    (htrans : ∀ a b c, le a b = true → le b c = true → le a c = true)
    (hanti : ∀ a b, le a b = true → le b a = true → a = b)
    {l₁ l₂ : List α} (hperm : l₁.Perm l₂) : sortBy le l₁ = sortBy le l₂ := by
  refine sorted_perm_unique (sortBy le l₁) (sortBy le l₂) ?_
    (sortBy_pairwise le htot htrans l₁) (sortBy_pairwise le htot htrans l₂) ?_
  · exact (sortBy_perm le l₁).trans (hperm.trans (sortBy_perm le l₂).symm)
  · intro a b _ _ h1 h2
    exact hanti a b h1 h2

end Huff

namespace Huff

/-! ## The merge loop extracts minimal weights -/

theorem mergeTrace_step {σ : Type} {h h1 h2 : List (HeapNode σ)} {a b : HeapNode σ}
    (n : Nat) (hlen : 1 < h.length)
    (e1 : pop heapNodeLe h = some (a, h1)) (e2 : pop heapNodeLe h1 = some (b, h2)) :
    mergeTrace (n + 1) h = (a, b, h2) :: mergeTrace n (push heapNodeLe h2
      ⟨a.freq + b.freq, .internal (a.freq + b.freq) a.node b.node⟩) := by
  conv_lhs => rw [mergeTrace]
  rw [if_pos hlen, e1]
  dsimp only
  rw [e2]

theorem mergeTrace_stop {σ : Type} {h : List (HeapNode σ)} (n : Nat)
    (hlen : ¬ 1 < h.length) : mergeTrace n h = [] := by
  cases n with
  | zero => rfl
  | succ m =>
    unfold mergeTrace
    rw [if_neg hlen]

theorem foldl_push_isHeap {α β : Type} (le : α → α → Bool) (g : β → α)
    (htot : ∀ a b, le a b = true ∨ le b a = true)
    (htrans : ∀ a b c, le a b = true → le b c = true → le a c = true) :
    ∀ (l : List β) (h : List α), IsHeap le h →
      IsHeap le (l.foldl (fun h x => push le h (g x)) h) := by
  intro l
  induction l with
  | nil => intro h hh; exact hh
  | cons x xs ih =>
    intro h hh
    exact ih (push le h (g x)) (push_isHeap le htot htrans hh (g x))

theorem isHeap_nil {α : Type} (le : α → α → Bool) : IsHeap le ([] : List α) := by
  intro i a b _ ha _
  have := (List.getElem?_eq_some.mp ha).1
  simp at this

theorem buildHeap0_isHeap (freqs : List (Symbol × Nat)) :
    IsHeap heapNodeLe (buildHeap0 freqs) :=
  foldl_push_isHeap heapNodeLe (fun p : Symbol × Nat => HeapNode.mk p.2 (.leaf p.1 p.2))
    heapNodeLe_total heapNodeLe_trans _ [] (isHeap_nil heapNodeLe)

theorem mergeTrace_min {σ : Type} [DecidableEq σ] :
    ∀ (fuel : Nat) (h : List (HeapNode σ)), IsHeap heapNodeLe h →
      ∀ e ∈ mergeTrace fuel h,
        e.1.freq ≤ e.2.1.freq
        ∧ ∀ x ∈ e.2.2, e.1.freq ≤ x.freq ∧ e.2.1.freq ≤ x.freq := by
  intro fuel
  induction fuel with
  | zero => intro h _ e he; cases he
  | succ n ih =>
    intro h hheap e he
    by_cases hlen : 1 < h.length
    · obtain ⟨a, h1, e1⟩ := pop_of_nonempty heapNodeLe
        (l := h) (by intro hnil; rw [hnil] at hlen; simp at hlen)
      have hl1 := pop_length heapNodeLe e1
      obtain ⟨b, h2, e2⟩ := pop_of_nonempty heapNodeLe
        (l := h1) (by intro hnil; rw [hnil] at hl1; simp at hl1; omega)
      rw [mergeTrace_step n hlen e1 e2] at he
      have hmaxa := pop_max heapNodeLe heapNodeLe_total heapNodeLe_trans hheap e1
      have hheap1 := pop_isHeap heapNodeLe heapNodeLe_total heapNodeLe_trans hheap e1
      have hmaxb := pop_max heapNodeLe heapNodeLe_total heapNodeLe_trans hheap1 e2
      have hheap2 := pop_isHeap heapNodeLe heapNodeLe_total heapNodeLe_trans hheap1 e2
      have hperm1 := pop_perm heapNodeLe e1
      have hperm2 := pop_perm heapNodeLe e2
      rcases List.mem_cons.mp he with rfl | htail
      · refine ⟨?_, ?_⟩
        · have hbh1 : b ∈ h1 := hperm2.mem_iff.mp (List.mem_cons_self b h2)
          have hbh : b ∈ h := hperm1.mem_iff.mp (List.mem_cons_of_mem a hbh1)
          exact (heapNodeLe_iff b a).mp (hmaxa b hbh)
        · intro x hx
          have hxh1 : x ∈ h1 := hperm2.mem_iff.mp (List.mem_cons_of_mem b hx)
          have hxh : x ∈ h := hperm1.mem_iff.mp (List.mem_cons_of_mem a hxh1)
          exact ⟨(heapNodeLe_iff x a).mp (hmaxa x hxh),
            (heapNodeLe_iff x b).mp (hmaxb x hxh1)⟩
      · exact ih _ (push_isHeap heapNodeLe heapNodeLe_total heapNodeLe_trans hheap2 _)
          e htail
    · rw [mergeTrace_stop (n + 1) hlen] at he
      cases he

/-- C6 amended: throughout `build_huffman_tree`'s merge loop, the two nodes
extracted in each round have minimal weight among the heap's contents (the
first popped is no heavier than the second, and both are no heavier than
anything left in the heap after the two pops); the merged node's weight is
their sum by construction.  Ties among equal weights are resolved by the
heap's internal layout — not by symbol order or leaf-versus-internal rank. -/
theorem c6_amended_extraction_by_weight (freqs : List (Symbol × Nat)) :
    ∀ e ∈ buildTrace freqs,
      e.1.freq ≤ e.2.1.freq
      ∧ ∀ x ∈ e.2.2, e.1.freq ≤ x.freq ∧ e.2.1.freq ≤ x.freq := by
  rw [buildTrace_eq]
  exact mergeTrace_min (buildHeap0 freqs).length (buildHeap0 freqs)
    (buildHeap0_isHeap freqs)

/-- Witness for `c6_amended_extraction_by_weight` on the table
`{[97] ↦ 1, [98] ↦ 2}`, whose single merge round pops the weight-1 leaf
before the weight-2 leaf. -/
theorem c6_amended_extraction_by_weight_witness :
    (⟨1, .leaf [97] 1⟩ : HeapNode Symbol).freq
        ≤ (⟨2, .leaf [98] 2⟩ : HeapNode Symbol).freq
      ∧ ∀ x ∈ ([] : List (HeapNode Symbol)),
          (⟨1, .leaf [97] 1⟩ : HeapNode Symbol).freq ≤ x.freq
          ∧ (⟨2, .leaf [98] 2⟩ : HeapNode Symbol).freq ≤ x.freq :=
  c6_amended_extraction_by_weight [([97], 1), ([98], 2)]
    (⟨1, .leaf [97] 1⟩, ⟨2, .leaf [98] 2⟩, []) (by decide)

end Huff

namespace Huff

/-! ## Weight normalization bounds and overflow-free merging -/

theorem totalWeight_le_length {σ : Type} :
    ∀ l : List (σ × Nat), (∀ p ∈ l, p.2 ≤ 1) → totalWeight l ≤ l.length := by
  intro l
  induction l with
  | nil => intro _; simp [totalWeight]
  | cons p rest ih =>
    intro hb
    have h1 := hb p (List.mem_cons_self p rest)
    have h2 := ih fun q hq => hb q (List.mem_cons_of_mem p hq)
    simp only [totalWeight, List.map_cons, List.sum_cons, List.length_cons] at h2 ⊢
    omega

theorem scaleLoop_le {σ : Type} :
    ∀ (fuel : Nat) (l : List (σ × Nat)), (∀ p ∈ l, p.2 ≤ 2 ^ fuel) →
      l.length ≤ limit → totalWeight (scaleLoop fuel l) ≤ limit := by
  intro fuel
  induction fuel with
  | zero =>
    intro l hb hn
    have := totalWeight_le_length l (by simpa using hb)
    unfold scaleLoop
    omega
  | succ n ih =>
    intro l hb hn
    unfold scaleLoop
    by_cases hg : limit < totalWeight l
    · rw [if_pos hg]
      refine ih (scaleStep l) ?_ (by simpa [scaleStep] using hn)
      intro p hp
      rcases List.mem_map.mp hp with ⟨q, hq, rfl⟩
      have hq2 := hb q hq
      have hpow : 1 ≤ 2 ^ n := Nat.one_le_two_pow
      have : q.2 / 2 ≤ 2 ^ n := by
        have : q.2 ≤ 2 ^ (n + 1) := hq2
        have h2 : 2 ^ (n + 1) = 2 * 2 ^ n := by ring
        omega
      simp only [max_le_iff]
      exact ⟨this, hpow⟩
    · rw [if_neg hg]
      omega

/-- The total weight of the heap nodes. -/
def sumFreq {σ : Type} (h : List (HeapNode σ)) : Nat :=
  (h.map (·.freq)).sum

theorem sumFreq_perm {σ : Type} {h1 h2 : List (HeapNode σ)}
    (hp : h1.Perm h2) : sumFreq h1 = sumFreq h2 := by
  unfold sumFreq
  exact (hp.map (fun x => x.freq)).sum_eq

theorem mergeTrace_sum {σ : Type} [DecidableEq σ] :
    ∀ (fuel : Nat) (h : List (HeapNode σ)) (S : Nat), sumFreq h = S →
      ∀ e ∈ mergeTrace fuel h, e.1.freq + e.2.1.freq ≤ S := by
  intro fuel
  induction fuel with
  | zero => intro h S _ e he; cases he
  | succ n ih =>
    intro h S hS e he
    by_cases hlen : 1 < h.length
    · obtain ⟨a, h1, e1⟩ := pop_of_nonempty heapNodeLe
        (l := h) (by intro hnil; rw [hnil] at hlen; simp at hlen)
      have hl1 := pop_length heapNodeLe e1
      obtain ⟨b, h2, e2⟩ := pop_of_nonempty heapNodeLe
        (l := h1) (by intro hnil; rw [hnil] at hl1; simp at hl1; omega)
      rw [mergeTrace_step n hlen e1 e2] at he
      have hs1 : a.freq + sumFreq h1 = S := by
        have := sumFreq_perm (pop_perm heapNodeLe e1)
        simp only [sumFreq, List.map_cons, List.sum_cons] at this
        rw [← hS]
        simpa [sumFreq] using this
      have hs2 : b.freq + sumFreq h2 = sumFreq h1 := by
        have := sumFreq_perm (pop_perm heapNodeLe e2)
        simp only [sumFreq, List.map_cons, List.sum_cons] at this
        simpa [sumFreq] using this
      rcases List.mem_cons.mp he with rfl | htail
      · simp only []
        omega
      · have hpush : sumFreq (push heapNodeLe h2
            ⟨a.freq + b.freq, .internal (a.freq + b.freq) a.node b.node⟩) = S := by
          have hp2 := sumFreq_perm (push_perm heapNodeLe h2
            ⟨a.freq + b.freq, .internal (a.freq + b.freq) a.node b.node⟩)
          have hcons : sumFreq ((⟨a.freq + b.freq,
              .internal (a.freq + b.freq) a.node b.node⟩ : HeapNode σ) :: h2)
              = a.freq + b.freq + sumFreq h2 := by
            simp [sumFreq]
          omega
        exact ih _ S hpush e htail
    · rw [mergeTrace_stop (n + 1) hlen] at he
      cases he

theorem sumFreq_buildHeap0 (freqs : List (Symbol × Nat)) :
    sumFreq (buildHeap0 freqs) = totalWeight (normalizeWeights freqs) := by
  unfold buildHeap0
  have hperm := foldl_push_perm heapNodeLe
    (fun p : Symbol × Nat => HeapNode.mk p.2 (.leaf p.1 p.2))
    (sortBy (fun a b => pairCmp a b != .gt) (normalizeWeights freqs)) []
  have h1 := sumFreq_perm (by simpa using hperm)
  rw [h1]
  have hsp := sortBy_perm (fun a b => pairCmp a b != .gt) (normalizeWeights freqs)
  calc sumFreq ((sortBy (fun a b => pairCmp a b != .gt)
        (normalizeWeights freqs)).map
        (fun p => HeapNode.mk p.2 (.leaf p.1 p.2)))
      = totalWeight (sortBy (fun a b => pairCmp a b != .gt)
          (normalizeWeights freqs)) := by
        unfold sumFreq totalWeight
        rw [List.map_map]
        exact congrArg List.sum (List.map_congr_left fun p _ => rfl)
    _ = totalWeight (normalizeWeights freqs) := by
        unfold totalWeight
        exact (hsp.map (fun x => x.2)).sum_eq

/-- C8: when the weights sum past `u64::MAX / 2` they are repeatedly halved
(floored at 1) until the total fits, and afterwards every merge in tree
construction adds two weights whose sum stays within `u64` — no merge can
overflow.  The hypotheses say the weights are `u64` values and the table has
at most `u64::MAX / 2` entries (any real table does: symbols are distinct). -/
theorem c8_normalization_prevents_overflow (freqs : List (Symbol × Nat))
    (hw : ∀ p ∈ freqs, p.2 ≤ u64MAX) (hn : freqs.length ≤ limit) :
    totalWeight (normalizeWeights freqs) ≤ limit
    ∧ ∀ e ∈ buildTrace freqs, e.1.freq + e.2.1.freq ≤ u64MAX := by
  have hbound : totalWeight (normalizeWeights freqs) ≤ limit := by
    refine scaleLoop_le 64 freqs ?_ hn
    intro p hp
    have h1 := hw p hp
    unfold u64MAX at h1
    omega
  refine ⟨hbound, ?_⟩
  intro e he
  rw [buildTrace_eq] at he
  have := mergeTrace_sum (buildHeap0 freqs).length (buildHeap0 freqs)
    (totalWeight (normalizeWeights freqs)) (sumFreq_buildHeap0 freqs) e he
  have hlim : limit ≤ u64MAX := by
    unfold limit
    omega
  omega

/-- Witness for `c8_normalization_prevents_overflow`: a two-symbol table
whose weights sum to `2^64`, which triggers two rounds of halving. -/
theorem c8_normalization_prevents_overflow_witness :
    totalWeight (normalizeWeights [([97], 2 ^ 63), ([98], 2 ^ 63)]) ≤ limit
    ∧ ∀ e ∈ buildTrace [([97], 2 ^ 63), ([98], 2 ^ 63)],
        e.1.freq + e.2.1.freq ≤ u64MAX :=
  c8_normalization_prevents_overflow [([97], 2 ^ 63), ([98], 2 ^ 63)]
    (by decide) (by decide)

end Huff

namespace Huff

/-! ## Determinism: the container does not depend on HashMap iteration order -/

theorem scaleLoop_perm {σ : Type} :
    ∀ (fuel : Nat) {l₁ l₂ : List (σ × Nat)}, l₁.Perm l₂ →
      (scaleLoop fuel l₁).Perm (scaleLoop fuel l₂) := by
  intro fuel
  induction fuel with
  | zero => intro l₁ l₂ hperm; exact hperm
  | succ n ih =>
    intro l₁ l₂ hperm
    have htw : totalWeight l₁ = totalWeight l₂ := by
      unfold totalWeight
      exact (hperm.map (fun x => x.2)).sum_eq
    unfold scaleLoop
    by_cases hg : limit < totalWeight l₁
    · rw [if_pos hg, if_pos (htw ▸ hg)]
      exact ih (hperm.map _)
    · rw [if_neg hg, if_neg (htw ▸ hg)]
      exact hperm

/-- The heap `encode_frequencies` (`encoder.rs`) builds: one `Node::Leaf`
per table entry, pushed in iteration order. -/
def headerHeap (frequencies : List (Symbol × Nat)) : List (HTree Symbol) :=
  frequencies.foldl (fun h p => push nodeLe h (.leaf p.1 p.2)) []

theorem encodeFrequenciesEnc_eq (freqs : List (Symbol × Nat)) (bs olen : Nat) :
    encodeFrequenciesEnc freqs bs olen
      = beBytes 8 olen ++ [bs] ++ beBytes 4 ((headerHeap freqs).length % 2 ^ 32)
        ++ popSymbols nodeLe (headerHeap freqs).length (headerHeap freqs) := rfl

theorem headerHeap_length (l : List (Symbol × Nat)) :
    (headerHeap l).length = l.length := by
  unfold headerHeap
  have h := foldl_push_length nodeLe
    (fun p : Symbol × Nat => (HTree.leaf p.1 p.2 : HTree Symbol)) l []
  simpa using h

theorem headerHeap_perm (l : List (Symbol × Nat)) :
    (headerHeap l).Perm (l.map fun p => (HTree.leaf p.1 p.2 : HTree Symbol)) := by
  unfold headerHeap
  have h := foldl_push_perm nodeLe
    (fun p : Symbol × Nat => (HTree.leaf p.1 p.2 : HTree Symbol)) l []
  simpa using h

theorem headerHeap_isHeap (l : List (Symbol × Nat)) :
    IsHeap nodeLe (headerHeap l) :=
  foldl_push_isHeap nodeLe (fun p : Symbol × Nat => (HTree.leaf p.1 p.2 : HTree Symbol))
    nodeLe_total nodeLe_trans l [] (isHeap_nil nodeLe)

/-- The leaf symbols a popped node contributes to the header. -/
def leafSyms : HTree Symbol → List Nat
  | .leaf s _ => s
  | .internal _ _ _ => []

theorem popSymbols_eq (le : HTree Symbol → HTree Symbol → Bool) :
    ∀ (fuel : Nat) (h : List (HTree Symbol)),
      popSymbols le fuel h = ((popAll le fuel h).map leafSyms).flatten := by
  intro fuel
  induction fuel with
  | zero => intro h; rfl
  | succ n ih =>
    intro h
    unfold popSymbols popAll
    rcases hp : pop le h with _ | ⟨x, h'⟩
    · rfl
    · cases x with
      | leaf s f => simp [leafSyms, ih]
      | internal f a b => simp [leafSyms, ih]

theorem popAll_headerHeap_eq {l₁ l₂ : List (Symbol × Nat)} (hperm : l₁.Perm l₂) :
    popAll nodeLe (headerHeap l₁).length (headerHeap l₁)
      = popAll nodeLe (headerHeap l₂).length (headerHeap l₂) := by
  have hshape : ∀ x ∈ popAll nodeLe (headerHeap l₁).length (headerHeap l₁),
      ∃ s f, x = HTree.leaf s f := by
    intro x hx
    have h1 : x ∈ headerHeap l₁ :=
      ((popAll_perm nodeLe _ _ (le_refl _)).mem_iff).mp hx
    have h2 : x ∈ l₁.map fun p => (HTree.leaf p.1 p.2 : HTree Symbol) :=
      (headerHeap_perm l₁).mem_iff.mp h1
    rcases List.mem_map.mp h2 with ⟨p, _, rfl⟩
    exact ⟨p.1, p.2, rfl⟩
  refine sorted_perm_unique (R := fun a b => nodeLe b a = true) _ _ ?_ ?_ ?_ ?_
  · refine ((popAll_perm nodeLe _ _ (le_refl _)).trans ?_).trans
      ((popAll_perm nodeLe _ _ (le_refl _)).symm)
    exact ((headerHeap_perm l₁).trans ((hperm.map _).trans (headerHeap_perm l₂).symm))
  · exact popAll_sorted nodeLe nodeLe_total nodeLe_trans _ _ (le_refl _)
      (headerHeap_isHeap l₁)
  · exact popAll_sorted nodeLe nodeLe_total nodeLe_trans _ _ (le_refl _)
      (headerHeap_isHeap l₂)
  · intro a b ha hb r1 r2
    rcases hshape a ha with ⟨s1, f1, rfl⟩
    rcases hshape b hb with ⟨s2, f2, rfl⟩
    have h := nodeLe_antisymm_leaf r2 r1
    rw [h.1, h.2]

/-- C7: compression is deterministic.  The association lists `l₁`, `l₂`
model two iteration orders of the same frequency `HashMap`; any two orders
produce the identical Huffman tree and the byte-identical container, so two
runs of `compress` on the same `(b, o)` cannot differ. -/
theorem c7_compress_deterministic (l₁ l₂ : List (Symbol × Nat))
    (hperm : l₁.Perm l₂) (data : List Nat) (order : Nat) :
    buildHuffmanTree l₁ = buildHuffmanTree l₂
    ∧ encoderCompressWith l₁ data order = encoderCompressWith l₂ data order := by
  have hsort : sortBy (fun a b => pairCmp a b != .gt) (normalizeWeights l₁)
      = sortBy (fun a b => pairCmp a b != .gt) (normalizeWeights l₂) :=
    sortBy_eq_of_perm _ pairLe_total pairLe_trans pairLe_antisymm
      (scaleLoop_perm 64 hperm)
  have hheap0 : buildHeap0 l₁ = buildHeap0 l₂ := by
    unfold buildHeap0
    rw [hsort]
  have hbuild : buildHuffmanTree l₁ = buildHuffmanTree l₂ := by
    rw [buildHuffmanTree_eq, buildHuffmanTree_eq, hheap0]
  have hlen12 : (headerHeap l₁).length = (headerHeap l₂).length := by
    rw [headerHeap_length, headerHeap_length, hperm.length_eq]
  have hencfreq : ∀ bs olen, encodeFrequenciesEnc l₁ bs olen
      = encodeFrequenciesEnc l₂ bs olen := by
    intro bs olen
    rw [encodeFrequenciesEnc_eq, encodeFrequenciesEnc_eq,
      popSymbols_eq, popSymbols_eq, popAll_headerHeap_eq hperm, hlen12]
  refine ⟨hbuild, ?_⟩
  unfold encoderCompressWith
  dsimp only
  rw [hbuild]
  rcases hbt : buildHuffmanTree l₂ with _ | tree
  · rfl
  · rw [hencfreq]

/-- Witness for `c7_compress_deterministic`: the two iteration orders of
the table `{[97] ↦ 1, [98] ↦ 2}` compress `[97, 98]` identically. -/
theorem c7_compress_deterministic_witness :
    buildHuffmanTree [([97], 1), ([98], 2)]
        = buildHuffmanTree [([98], 2), ([97], 1)]
    ∧ encoderCompressWith [([97], 1), ([98], 2)] [97, 98] 0
        = encoderCompressWith [([98], 2), ([97], 1)] [97, 98] 0 :=
  c7_compress_deterministic [([97], 1), ([98], 2)] [([98], 2), ([97], 1)]
    (by decide) [97, 98] 0

end Huff

namespace Huff

/-! ## The container header stores symbols, never weights -/

theorem beBytes_length (k n : Nat) : (beBytes k n).length = k := by
  simp [beBytes]

theorem sum_map_eq_mul {β : Type} :
    ∀ (l : List β) (f : β → Nat) (c : Nat), (∀ x ∈ l, f x = c) →
      (l.map f).sum = c * l.length := by
  intro l
  induction l with
  | nil => intro f c _; simp
  | cons x xs ih =>
    intro f c h
    have h1 := h x (List.mem_cons_self x xs)
    have h2 := ih f c fun y hy => h y (List.mem_cons_of_mem x hy)
    simp only [List.map_cons, List.sum_cons, List.length_cons, h1, h2]
    ring

/-- C3 amended: the serialized header consists of exactly `original_length`
(8 bytes), `block_size` (1 byte), the symbol count (4 bytes) and the
recorded symbols themselves (`block_size` bytes each), in the heap's pop
order — `13 + block_size · n` bytes in total.  No per-symbol weight is
embedded, so the frequency table cannot be rebuilt from the header alone
(distinct tables serialize identically — see the counterexample). -/
theorem c3_amended_header_has_no_weights (freqs : List (Symbol × Nat))
    (bs olen : Nat) (hsym : ∀ p ∈ freqs, p.1.length = bs) :
    (encodeFrequenciesEnc freqs bs olen).length = 13 + bs * freqs.length := by
  rw [encodeFrequenciesEnc_eq, popSymbols_eq]
  have hlenpop : (((popAll nodeLe (headerHeap freqs).length
      (headerHeap freqs)).map leafSyms).flatten).length = bs * freqs.length := by
    rw [List.length_flatten, List.map_map]
    have hperm2 : (popAll nodeLe (headerHeap freqs).length (headerHeap freqs)).Perm
        (freqs.map fun p => (HTree.leaf p.1 p.2 : HTree Symbol)) :=
      (popAll_perm nodeLe _ _ (le_refl _)).trans (headerHeap_perm freqs)
    rw [(hperm2.map (List.length ∘ leafSyms)).sum_eq, List.map_map]
    have := sum_map_eq_mul freqs
      ((List.length ∘ leafSyms) ∘ fun p => (HTree.leaf p.1 p.2 : HTree Symbol)) bs
      (by intro p hp; simpa [leafSyms] using hsym p hp)
    rw [this]
  simp only [List.length_append, beBytes_length, List.length_cons,
    List.length_nil, hlenpop]

end Huff

namespace Huff

/-- Witness for `c3_amended_header_has_no_weights`: the header of a
two-symbol order-0 table is 15 bytes — 8 + 1 + 4 + 2·1, with no room for
any weight field. -/
theorem c3_amended_header_has_no_weights_witness :
    (encodeFrequenciesEnc [([97], 1), ([98], 2)] 1 3).length = 13 + 1 * 2 :=
  c3_amended_header_has_no_weights [([97], 1), ([98], 2)] 1 3 (by decide)

end Huff
